import Mathlib

/-!
Verification of the Loeppky authentication/session core and the receipt
matcher against their natural-language specification.

The development shallowly embeds the Python sources:
  * `src/pages/12_Receipts.py` — `find_matches` (fuzzy record matcher);
  * `src/utils/auth.py` — registration, email verification, sign-in,
    session expiry, and the signed session-token codec
    (`_make_token` / `_verify_token`).

Modelling conventions:
  * Python strings are modelled as `List Char` (Unicode code points) in the
    store/matcher layer and as `List Nat` (code points / bytes) in the token
    layer, where byte-level faithfulness matters.
  * Monetary amounts and wall-clock times are modelled as `ℚ`; the Python
    sources use IEEE floats, which agree with `ℚ` on the cent-valued amounts
    and integral times exercised here.
  * The spreadsheet store is modelled as an explicit `List UserRec` threaded
    through each operation; `gspread` row updates become `List.set`.
  * `bcrypt.checkpw` is an opaque external primitive and is passed as an
    explicit function parameter.
All definitions are structurally recursive so that concrete instances
evaluate inside the kernel.
-/

set_option maxRecDepth 100000
set_option maxHeartbeats 1000000

namespace Loeppky

/-! ### Character helpers (models of Python `str` methods, ASCII fragment)

`str.lower`, `str.upper`, `str.strip` and `str.split()` in the sources are
applied to sheet cells and vendor text; they are modelled on the ASCII
range, which is the fragment every claim exercises (Python's full Unicode
case mapping coincides with the identity outside the cased ranges used
here).
-/

def asciiLowerChar (c : Char) : Char :=
  if 'A' ≤ c ∧ c ≤ 'Z' then Char.ofNat (c.toNat + 32) else c

def asciiUpperChar (c : Char) : Char :=
  if 'a' ≤ c ∧ c ≤ 'z' then Char.ofNat (c.toNat - 32) else c

def asciiLower (s : List Char) : List Char := s.map asciiLowerChar

def asciiUpper (s : List Char) : List Char := s.map asciiUpperChar

def isSpaceChar (c : Char) : Bool :=
  c == ' ' || c == '\t' || c == '\n' || c == '\r' || c == '\x0b' || c == '\x0c'

/-- Model of Python `str.strip()` (whitespace strip on both ends). -/
def pyStrip (s : List Char) : List Char :=
  ((s.dropWhile isSpaceChar).reverse.dropWhile isSpaceChar).reverse

/-- Helper for `pySplitWs`: scan the string, building the current word in
`acc` (reversed). -/
def splitWsAux : List Char → List Char → List (List Char)
  | [], acc => if acc.isEmpty then [] else [acc.reverse]
  | c :: rest, acc =>
    if isSpaceChar c then
      if acc.isEmpty then splitWsAux rest []
      else acc.reverse :: splitWsAux rest []
    else splitWsAux rest (c :: acc)

/-- Model of Python `str.split()` — split on runs of whitespace,
discarding empty pieces. -/
def pySplitWs (s : List Char) : List (List Char) := splitWsAux s []

/-- Substring test: Python's `needle in haystack` on strings. -/
def isSubstr (needle haystack : List Char) : Bool :=
  haystack.tails.any (fun t => needle.isPrefixOf t)

/-! ### Dates: model of `datetime.strptime(s, "%Y-%m-%d")`

CPython's `_strptime` compiles `%Y` to exactly four digits, `%m` to the
regex `1[0-2]|0[1-9]|[1-9]` and `%d` to `3[01]|[12]\d|0[1-9]|[1-9]`; the
whole string must be consumed, and the resulting triple must be a valid
proleptic-Gregorian date with year ≥ 1 (else `ValueError`).  A parsed date
is returned as its ordinal (`date.toordinal`), so that subtracting two
parsed dates gives exactly `(d1 - d2).days` for the midnight datetimes the
page constructs.
-/

def isDigitChar (c : Char) : Bool := '0' ≤ c && c ≤ '9'

def digitVal (c : Char) : Nat := c.toNat - 48

/-- Read a one- or two-digit field per the `%m`/`%d` regexes: two digits
are taken when available (value must lie in `[lo, hi]`, which excludes
`00`), otherwise a single nonzero digit. -/
def readNum2 (lo hi : Nat) : List Char → Option (Nat × List Char)
  | d1 :: d2 :: rest =>
    if isDigitChar d1 && isDigitChar d2 then
      let v := 10 * digitVal d1 + digitVal d2
      if lo ≤ v ∧ v ≤ hi then some (v, rest) else none
    else if isDigitChar d1 && decide (1 ≤ digitVal d1) then
      some (digitVal d1, d2 :: rest)
    else none
  | [d1] =>
    if isDigitChar d1 && decide (1 ≤ digitVal d1) then some (digitVal d1, [])
    else none
  | [] => none

def isLeapYear (y : Nat) : Bool := y % 4 == 0 && (y % 100 != 0 || y % 400 == 0)

def daysInMonth (y m : Nat) : Nat :=
  if m = 2 then (if isLeapYear y then 29 else 28)
  else if m = 4 ∨ m = 6 ∨ m = 9 ∨ m = 11 then 30
  else 31

def cumMonthDays (m : Nat) : Nat :=
  [0, 31, 59, 90, 120, 151, 181, 212, 243, 273, 304, 334].getD (m - 1) 0

/-- Proleptic-Gregorian ordinal of a date, as in Python `date.toordinal`
(0001-01-01 has ordinal 1). -/
def toOrdinal (y m d : Nat) : Nat :=
  365 * (y - 1) + ((y - 1) / 4 - (y - 1) / 100 + (y - 1) / 400)
    + cumMonthDays m + (if 2 < m ∧ isLeapYear y then 1 else 0) + d

/-- Model of `datetime.strptime(s, "%Y-%m-%d")`: `none` is the `ValueError`
path (caught and handled by the callers), `some n` the ordinal of the
parsed date. -/
def parseDate (s : List Char) : Option Nat :=
  match s with
  | c1 :: c2 :: c3 :: c4 :: rest =>
    if isDigitChar c1 && isDigitChar c2 && isDigitChar c3 && isDigitChar c4 then
      let y := 1000 * digitVal c1 + 100 * digitVal c2 + 10 * digitVal c3 + digitVal c4
      if y = 0 then none
      else match rest with
        | '-' :: rest2 =>
          match readNum2 1 12 rest2 with
          | some (m, '-' :: rest3) =>
            match readNum2 1 31 rest3 with
            | some (d, []) => if d ≤ daysInMonth y m then some (toOrdinal y m d) else none
            | _ => none
          | _ => none
        | _ => none
    else none
  | _ => none

/-! ### The matcher: embedding of `find_matches` (src/pages/12_Receipts.py)

A `Txn` models one row of the Business Transactions records as consumed by
`find_matches`: `date` is the `"Date"` cell, `total` the pre-extracted
`"_total"` float, `desc` the `"Vendor / Description"` cell and `hubdoc`
the `"Hubdoc (Y/N)"` cell.  The returned candidates carry the
`"_match_score"` value that the code stores on a copy of the row.
-/

structure Txn where
  date : List Char
  total : ℚ
  desc : List Char
  hubdoc : List Char
deriving DecidableEq, Repr

/-- Embedding of `str(txn.get("Hubdoc (Y/N)", "N")).strip().upper() == "Y"`. -/
def txnAlreadyMatched (t : Txn) : Bool :=
  asciiUpper (pyStrip t.hubdoc) == ['Y']

/-- Embedding of the vendor word-overlap test:
`any(w in v2 for w in v1.split() if len(w) > 3) or v1[:6] in v2`. -/
def vendorHit (vendor desc : List Char) : Bool :=
  let v1 := asciiLower vendor
  let v2 := asciiLower desc
  (pySplitWs v1).any (fun w => decide (3 < w.length) && isSubstr w v2)
    || isSubstr (v1.take 6) v2

/-- Python's `abs` on `ℚ` (kernel-computable form of `|·|`). -/
def pyAbs (q : ℚ) : ℚ := if q < 0 then -q else q

/-- Embedding of the candidate score: `abs(txn["_total"] - total_amount) * 10
+ abs((rdate - tdate).days)`, minus 5 when the vendor text is non-empty and
overlaps the description. -/
def matchScore (totalAmount : ℚ) (dayDiff : Nat) (vendor : List Char) (t : Txn) : ℚ :=
  let score := pyAbs (t.total - totalAmount) * 10 + (dayDiff : ℚ)
  if vendor.isEmpty then score
  else if vendorHit vendor t.desc then score - 5 else score

/-- Floor of a rational, in kernel-computable form
(`⌊q⌋ = q.num / q.den` by `Rat.floor_def`). -/
def ratFloor (q : ℚ) : ℤ := q.num / (q.den : ℤ)

/-- Python `round(x, 2)` (round half to even at two decimals), on `ℚ`. -/
def pyRound2 (q : ℚ) : ℚ :=
  let x := q * 100
  let f : ℤ := ratFloor x
  let r := x - (f : ℚ)
  let n : ℤ :=
    if r < 1 / 2 then f
    else if 1 / 2 < r then f + 1
    else if f % 2 = 0 then f else f + 1
  (n : ℚ) / 100

def dayDiffAbs (rd td : Nat) : Nat := ((rd : ℤ) - (td : ℤ)).natAbs

/-- The filtering loop of `find_matches`: drop already-matched rows, rows
more than $1.50 off in amount, rows with unparseable dates, and rows more
than 10 days off; score the survivors. -/
def findCandidates (txns : List Txn) (totalAmount : ℚ) (rdate : Nat)
    (vendor : List Char) : List (Txn × ℚ) :=
  txns.filterMap fun t =>
    if txnAlreadyMatched t then none
    else if 3 / 2 < pyAbs (t.total - totalAmount) then none
    else match parseDate t.date with
      | none => none
      | some td =>
        if 10 < dayDiffAbs rdate td then none
        else some (t, pyRound2 (matchScore totalAmount (dayDiffAbs rdate td) vendor t))

def scoreLe (a b : Txn × ℚ) : Bool := a.2 ≤ b.2

/-- Insert into a sorted list, after any equal elements (the stable
position). -/
def stableInsert (le : α → α → Bool) (x : α) : List α → List α
  | [] => [x]
  | y :: ys => if le x y then x :: y :: ys else y :: stableInsert le x ys

/-- Stable ascending insertion sort.  Python's `sorted` is specified to be
a stable ascending sort by the key; any two stable ascending sorts agree,
so this is a faithful model of `sorted(candidates, key=...)`. -/
def stableSort (le : α → α → Bool) : List α → List α
  | [] => []
  | x :: xs => stableInsert le x (stableSort le xs)

/-- Embedding of `find_matches(txns, total_amount, receipt_date, vendor)`:
guard the degenerate queries, filter and score, then
`sorted(candidates, key=lambda x: x["_match_score"])[:5]`. -/
def find_matches (txns : List Txn) (totalAmount : ℚ) (receiptDate : List Char)
    (vendor : List Char) : List (Txn × ℚ) :=
  if receiptDate.isEmpty || decide (totalAmount ≤ 0) then []
  else match parseDate receiptDate with
    | none => []
    | some rdate =>
      (stableSort scoreLe (findCandidates txns totalAmount rdate vendor)).take 5

/-! ### The user store: embedding of registration / verification / sign-in
(src/utils/auth.py)

A `UserRec` is one row of the `👤 Users` sheet with columns
`Username | Name | Email | Password Hash | Role | Verified | Verify Token |
Created At`.  The sheet itself is modelled as a `List UserRec`; a gspread
row index `i + 2` corresponds to list position `i`, and `_update_user`
becomes `List.set`.  `bcrypt.hashpw` / `bcrypt.checkpw` are opaque
externals, passed in as function parameters, as are the random verify
token, the creation timestamp and the email-dispatch outcome.
-/

structure UserRec where
  username : List Char
  name : List Char
  email : List Char
  pwHash : List Char
  role : List Char
  verified : List Char
  verifyToken : List Char
  createdAt : List Char
deriving DecidableEq, Repr

def ROLE_ADMIN : List Char := "admin".toList
def ROLE_BUSINESS : List Char := "business".toList
def ROLE_PERSONAL : List Char := "personal".toList

/-- Embedding of `_find_user`: first row whose `Username` matches
case-insensitively, together with its position. -/
def findUserIdx (username : List Char) : List UserRec → Option (Nat × UserRec)
  | [] => none
  | u :: us =>
    if asciiLower u.username == asciiLower username then some (0, u)
    else (findUserIdx username us).map (fun p => (p.1 + 1, p.2))

/-- Outcome messages of `_register`, abstracted from their literal text:
the two `False` returns, and the two `True` returns (email sent, or manual
activation advice whose text mentions admin status for the first user). -/
inductive RegOutcome
  | dupUsername
  | dupEmail
  | createdEmailed
  | createdManual (adminNote : Bool)
deriving DecidableEq, Repr

/-- The duplicate-check loop of `_register`: the first row matching the
username (checked first) or the email decides the outcome. -/
def dupCheck (username email : List Char) : List UserRec → Option RegOutcome
  | [] => none
  | u :: us =>
    if asciiLower u.username == asciiLower username then some .dupUsername
    else if asciiLower u.email == asciiLower email then some .dupEmail
    else dupCheck username email us

/-- Embedding of `_register(username, name, email, password)`.
`hashpw` models `_hash_pw` (bcrypt with fresh salt), `token` the
`secrets.token_urlsafe(32)` value, `created` the timestamp string, and
`emailSent` whether `_send_verify_email` succeeded.  Returns the updated
store, the boolean of the `(bool, str)` pair, and the abstracted message. -/
def register (hashpw : List Char → List Char) (token created : List Char)
    (emailSent : Bool) (users : List UserRec)
    (username name email password : List Char) :
    List UserRec × Bool × RegOutcome :=
  match dupCheck username email users with
  | some o => (users, false, o)
  | none =>
    let role := if users.isEmpty then ROLE_ADMIN else ROLE_PERSONAL
    let newU : UserRec :=
      ⟨username, name, email, hashpw password, role, "No".toList, token, created⟩
    (users ++ [newU], true,
      if emailSent then .createdEmailed else .createdManual (role == ROLE_ADMIN))

/-- Search loop of `_find_by_token` (exact match on `Verify Token`). -/
def findTokenIdx (token : List Char) : List UserRec → Option (Nat × UserRec)
  | [] => none
  | u :: us =>
    if u.verifyToken == token then some (0, u)
    else (findTokenIdx token us).map (fun p => (p.1 + 1, p.2))

/-- Embedding of `_find_by_token`: empty tokens are rejected up front
(`if not token: return None`). -/
def find_by_token (users : List UserRec) (token : List Char) :
    Option (Nat × UserRec) :=
  if token.isEmpty then none else findTokenIdx token users

/-- Outcome messages of `_verify`, abstracted from their literal text:
"Invalid or expired verification link." (ok=False),
"Account already verified — you can sign in." (ok=True),
"Email verified! You can now sign in." (ok=True). -/
inductive VerifyOutcome
  | invalidToken
  | alreadyVerified
  | verifiedNow
deriving DecidableEq, Repr

/-- Embedding of `_verify(token)`: look up by token; reject if absent;
idempotent success if already verified; otherwise set `Verified = "Yes"`
and clear the token. -/
def verify_email (users : List UserRec) (token : List Char) :
    List UserRec × Bool × VerifyOutcome :=
  match find_by_token users token with
  | none => (users, false, .invalidToken)
  | some (i, u) =>
    if u.verified == "Yes".toList then (users, true, .alreadyVerified)
    else (users.set i { u with verified := "Yes".toList, verifyToken := [] },
          true, .verifiedNow)

/-- Outcomes of the Sign In button handler in `require_auth`:
"Incorrect username or password." (user missing or password check failed),
the "Please verify your email" warning, the business-access denial, and
the successful login. -/
inductive SignInOutcome
  | invalidCredentials
  | notVerified
  | roleDenied
  | success (username name role : List Char)
deriving DecidableEq, Repr

/-- Embedding of the Sign In branch of `require_auth` (src/utils/auth.py,
lines 434-467): find the user by stripped username; reject with the
generic credentials error if absent; warn if not verified; reject with the
generic credentials error if the bcrypt check fails; deny if a business
page is requested without a business/admin role; otherwise log in.
`checkpw` models `_check_pw`. -/
def signIn (checkpw : List Char → List Char → Bool) (level : List Char)
    (users : List UserRec) (uIn pIn : List Char) : SignInOutcome :=
  match findUserIdx (pyStrip uIn) users with
  | none => .invalidCredentials
  | some (_, u) =>
    if ¬ (u.verified == "Yes".toList) then .notVerified
    else if ¬ checkpw pIn u.pwHash then .invalidCredentials
    else
      if level == ROLE_BUSINESS && ¬ (u.role == ROLE_BUSINESS || u.role == ROLE_ADMIN) then
        .roleDenied
      else .success u.username u.name u.role

/-! ### Sessions: embedding of the `require_auth` session logic

The `st.session_state` keys `_auth_username/_auth_name/_auth_role/
_auth_expires` are modelled jointly as an optional `SessionSt`; the
`_auth_health` flag separately.  Wall-clock time (`datetime.now()`) is a
`ℚ` measured in hours, so the TTL `timedelta(hours=_SESSION_HOURS)`
is the constant 6.  The browser cookie is modelled by its
`_verify_token` result: `cookiePayload = some (u, n, r)` iff a cookie is
present and verifies (the token codec itself is embedded separately
below).
-/

structure SessionSt where
  user : List Char
  name : List Char
  role : List Char
  expires : ℚ
deriving DecidableEq

structure AuthState where
  session : Option SessionSt
  health : Bool
deriving DecidableEq

inductive AuthOutcome
  | allowed
  | deniedRole
  | healthPrompt
  | loginPage
deriving DecidableEq, Repr

def SESSION_HOURS : ℚ := 6

/-- Embedding of one `require_auth(level)` call (src/utils/auth.py, lines
352-406): lazily expire the session when `datetime.now() > expires`;
restore from the (already verified) cookie if the session is gone; refresh
the expiry to now + TTL on every active page load; then enforce the role
matrix and the health gate.  Returns the new state and which page the user
sees. -/
def requireAuth (level : List Char) (now : ℚ)
    (cookiePayload : Option (List Char × List Char × List Char))
    (st : AuthState) : AuthState × AuthOutcome :=
  let st1 : AuthState :=
    match st.session with
    | some s => if s.expires < now then { st with session := none } else st
    | none => st
  let st2 : AuthState :=
    match st1.session, cookiePayload with
    | none, some (u, n, r) =>
      { st1 with session := some ⟨u, n, r, now + SESSION_HOURS⟩ }
    | _, _ => st1
  match st2.session with
  | some s =>
    let st3 : AuthState := { st2 with session := some { s with expires := now + SESSION_HOURS } }
    if level == ROLE_BUSINESS && ¬ (s.role == ROLE_BUSINESS || s.role == ROLE_ADMIN) then
      (st3, .deniedRole)
    else if level == ROLE_PERSONAL && ¬ (s.role == ROLE_PERSONAL || s.role == ROLE_ADMIN) then
      (st3, .deniedRole)
    else if level == ROLE_PERSONAL && ¬ st3.health then (st3, .healthPrompt)
    else (st3, .allowed)
  | none => (st2, .loginPage)

/-! ### The session-token codec: embedding of `_make_token` / `_verify_token`

`_make_token` serialises `{"u": username, "n": name, "r": role, "exp":
int(time.time()) + 6*3600}` with `json.dumps(..., separators=(",", ":"))`,
signs the payload with `HMAC-SHA256(secret, payload)` (hex digest), and
base64-encodes `payload + "|" + sig`.  `_verify_token` inverts this,
rejecting on any exception, on HMAC mismatch (`hmac.compare_digest`,
modelled by equality — the constant-time aspect is a timing property
outside a functional embedding), and on expiry.

Byte strings are `List Nat` of byte values; Python text strings are
`List Nat` of Unicode code points.  The payload emitted by `json.dumps`
(default `ensure_ascii=True`) is pure ASCII, so its UTF-8 encoding is the
identity on code points.  SHA-256 is implemented from FIPS 180-4, HMAC
from RFC 2104 with a 64-byte block, matching `hashlib.sha256` /
`hmac.new(..., hashlib.sha256)`; both are validated below against
`hashlib` reference digests.
-/

def strCodes (s : String) : List Nat := s.toList.map Char.toNat

def M32 : Nat := 4294967296

def add32 (a b : Nat) : Nat := (a + b) % M32

/-- Right rotation of a 32-bit word, in arithmetic form (the two summands
occupy disjoint bit ranges). -/
def rotr (n x : Nat) : Nat := x / 2 ^ n + x % 2 ^ n * 2 ^ (32 - n)

def shr (n x : Nat) : Nat := x / 2 ^ n

def bsig0 (x : Nat) : Nat := (rotr 2 x) ^^^ (rotr 13 x) ^^^ (rotr 22 x)

def bsig1 (x : Nat) : Nat := (rotr 6 x) ^^^ (rotr 11 x) ^^^ (rotr 25 x)

def ssig0 (x : Nat) : Nat := (rotr 7 x) ^^^ (rotr 18 x) ^^^ (shr 3 x)

def ssig1 (x : Nat) : Nat := (rotr 17 x) ^^^ (rotr 19 x) ^^^ (shr 10 x)

def chF (e f g : Nat) : Nat := (e &&& f) ^^^ ((4294967295 - e) &&& g)

def majF (a b c : Nat) : Nat := (a &&& b) ^^^ (a &&& c) ^^^ (b &&& c)

def shaK : List Nat := [
  1116352408, 1899447441, 3049323471, 3921009573, 961987163, 1508970993,
  2453635748, 2870763221, 3624381080, 310598401, 607225278, 1426881987,
  1925078388, 2162078206, 2614888103, 3248222580, 3835390401, 4022224774,
  264347078, 604807628, 770255983, 1249150122, 1555081692, 1996064986,
  2554220882, 2821834349, 2952996808, 3210313671, 3336571891, 3584528711,
  113926993, 338241895, 666307205, 773529912, 1294757372, 1396182291,
  1695183700, 1986661051, 2177026350, 2456956037, 2730485921, 2820302411,
  3259730800, 3345764771, 3516065817, 3600352804, 4094571909, 275423344,
  430227734, 506948616, 659060556, 883997877, 958139571, 1322822218,
  1537002063, 1747873779, 1955562222, 2024104815, 2227730452, 2361852424,
  2428436474, 2756734187, 3204031479, 3329325298]

def shaH0 : List Nat := [1779033703, 3144134277, 1013904242, 2773480762,
  1359893119, 2600822924, 528734635, 1541459225]

/-- Big-endian byte string of `n`, `k` bytes wide. -/
def beBytes : Nat → Nat → List Nat
  | 0, _ => []
  | k + 1, n => beBytes k (n / 256) ++ [n % 256]

/-- SHA-256 message padding: `0x80`, zeros to 56 mod 64, then the bit
length as a 64-bit big-endian integer. -/
def padMsg (m : List Nat) : List Nat :=
  m ++ 128 :: List.replicate ((119 - m.length % 64) % 64) 0 ++ beBytes 8 (m.length * 8)

def bytesToWords : List Nat → List Nat
  | a :: b :: c :: d :: rest => (((a * 256 + b) * 256 + c) * 256 + d) :: bytesToWords rest
  | _ => []

/-- Message-schedule extension, on the reversed word list (head = most
recent word): `W[t] = σ1(W[t-2]) + W[t-7] + σ0(W[t-15]) + W[t-16]`. -/
def extendW : Nat → List Nat → List Nat
  | 0, rws => rws
  | f + 1, rws =>
    let nw := add32 (add32 (ssig1 (rws.getD 1 0)) (rws.getD 6 0))
              (add32 (ssig0 (rws.getD 14 0)) (rws.getD 15 0))
    extendW f (nw :: rws)

/-- One SHA-256 round on the state `[a,b,c,d,e,f,g,h]`. -/
def roundStep (st : List Nat) (kw : Nat × Nat) : List Nat :=
  match st with
  | [a, b, c, d, e, f, g, h] =>
    let t1 := add32 (add32 (add32 h (bsig1 e)) (add32 (chF e f g) kw.1)) kw.2
    let t2 := add32 (bsig0 a) (majF a b c)
    [add32 t1 t2, a, b, c, add32 d t1, e, f, g]
  | st => st

/-- Compress one 16-word block into the running hash. -/
def compress (h : List Nat) (block : List Nat) : List Nat :=
  let w := (extendW 48 block.reverse).reverse
  let fin := (shaK.zip w).foldl roundStep h
  (h.zip fin).map fun p => add32 p.1 p.2

def chunks16 : List Nat → List (List Nat)
  | w0 :: w1 :: w2 :: w3 :: w4 :: w5 :: w6 :: w7 :: w8 :: w9 :: w10 :: w11 :: w12 :: w13 :: w14 :: w15 :: rest =>
      [w0, w1, w2, w3, w4, w5, w6, w7, w8, w9, w10, w11, w12, w13, w14, w15] :: chunks16 rest
  | _ => []

/-- SHA-256 of a byte string, as a 32-byte string (model of
`hashlib.sha256(m).digest()`). -/
def sha256 (m : List Nat) : List Nat :=
  let blocks := chunks16 (bytesToWords (padMsg m))
  (blocks.foldl compress shaH0).foldr (fun w acc => beBytes 4 w ++ acc) []

/-- Lowercase hex digit (as used by `hexdigest` and by `json.dumps`'s
`\uXXXX` escapes). -/
def hexDigitL (n : Nat) : Nat := if n < 10 then 48 + n else 87 + n

/-- Lowercase hex string of a byte string (model of `.hexdigest()`). -/
def hexOfBytes : List Nat → List Nat
  | [] => []
  | b :: rest => hexDigitL (b / 16) :: hexDigitL (b % 16) :: hexOfBytes rest

/-- HMAC-SHA256 (RFC 2104, 64-byte block), as in
`hmac.new(key, msg, hashlib.sha256)`. -/
def hmacSha256 (key msg : List Nat) : List Nat :=
  let k0 := if 64 < key.length then sha256 key else key
  let kp := k0 ++ List.replicate (64 - k0.length) 0
  sha256 ((kp.map (fun b => b ^^^ 92)) ++ sha256 ((kp.map (fun b => b ^^^ 54)) ++ msg))

/-! #### Base64 (standard alphabet), as used by `base64.b64encode` /
`base64.b64decode`.

Decoding models CPython's non-strict `binascii.a2b_base64`: characters
outside the alphabet (and outside `=`) are discarded; a quad closed by
padding ends the decode; unused trailing bits of the final group are
discarded; a leftover partial quad is an error. -/

def b64CharOf (v : Nat) : Nat :=
  if v < 26 then 65 + v
  else if v < 52 then 97 + (v - 26)
  else if v < 62 then 48 + (v - 52)
  else if v = 62 then 43 else 47

def b64encode : List Nat → List Nat
  | [] => []
  | [a] => [b64CharOf (a / 4), b64CharOf (a % 4 * 16), 61, 61]
  | [a, b] => [b64CharOf (a / 4), b64CharOf (a % 4 * 16 + b / 16), b64CharOf (b % 16 * 4), 61]
  | a :: b :: c :: rest =>
    b64CharOf (a / 4) :: b64CharOf (a % 4 * 16 + b / 16) ::
    b64CharOf (b % 16 * 4 + c / 64) :: b64CharOf (c % 64) :: b64encode rest

def isB64Char (c : Nat) : Bool :=
  (65 ≤ c && c ≤ 90) || (97 ≤ c && c ≤ 122) || (48 ≤ c && c ≤ 57) || c == 43 || c == 47

def b64ValOf (c : Nat) : Nat :=
  if 65 ≤ c ∧ c ≤ 90 then c - 65
  else if 97 ≤ c ∧ c ≤ 122 then c - 97 + 26
  else if 48 ≤ c ∧ c ≤ 57 then c - 48 + 52
  else if c = 43 then 62 else 63

def b64decodeQuads : List Nat → Option (List Nat)
  | [] => some []
  | a :: b :: c :: d :: rest =>
    if c = 61 ∧ d = 61 then
      if isB64Char a && isB64Char b then some [b64ValOf a * 4 + b64ValOf b / 16]
      else none
    else if d = 61 then
      if isB64Char a && isB64Char b && isB64Char c then
        some [b64ValOf a * 4 + b64ValOf b / 16, b64ValOf b % 16 * 16 + b64ValOf c / 4]
      else none
    else
      if isB64Char a && isB64Char b && isB64Char c && isB64Char d then
        (b64decodeQuads rest).map (fun bs =>
          (b64ValOf a * 4 + b64ValOf b / 16) ::
          (b64ValOf b % 16 * 16 + b64ValOf c / 4) ::
          (b64ValOf c % 4 * 64 + b64ValOf d) :: bs)
      else none
  | _ => none

def b64decode (s : List Nat) : Option (List Nat) :=
  b64decodeQuads (s.filter (fun c => isB64Char c || c == 61))

/-! #### JSON: the fragment of `json.dumps` / `json.loads` exercised by the
token payload.

`json.dumps(..., separators=(",", ":"))` with the default
`ensure_ascii=True` emits `"` `\` and the five short control escapes
specially, other code points below 0x20 and above 0x7e as `\uXXXX`
(lowercase hex, astral code points as surrogate pairs), and everything
else verbatim.  The parse function below models `json.loads` on the exact
object grammar `{"u":<str>,"n":<str>,"r":<str>,"exp":<int>}` that
`_make_token` produces (and that `_verify_token` feeds to it); all other
JSON shapes are mapped to `none`, which `_verify_token` treats like any
parse failure. -/

def hex4 (n : Nat) : List Nat :=
  [hexDigitL (n / 4096 % 16), hexDigitL (n / 256 % 16), hexDigitL (n / 16 % 16), hexDigitL (n % 16)]

def escapeChar (c : Nat) : List Nat :=
  if c = 34 then [92, 34]
  else if c = 92 then [92, 92]
  else if c = 8 then [92, 98]
  else if c = 9 then [92, 116]
  else if c = 10 then [92, 110]
  else if c = 12 then [92, 102]
  else if c = 13 then [92, 114]
  else if c < 32 then 92 :: 117 :: hex4 c
  else if c ≤ 126 then [c]
  else if c < 65536 then 92 :: 117 :: hex4 c
  else 92 :: 117 :: hex4 (55296 + (c - 65536) / 1024) ++ 92 :: 117 :: hex4 (56320 + (c - 65536) % 1024)

def escString : List Nat → List Nat
  | [] => []
  | c :: cs => escapeChar c ++ escString cs

def natDigitsRev : Nat → Nat → List Nat
  | 0, _ => []
  | _ + 1, 0 => []
  | f + 1, n + 1 => (n + 1) % 10 :: natDigitsRev f ((n + 1) / 10)

/-- Decimal digit string of `n` (model of `json.dumps` on a nonnegative
`int`). -/
def natDecimal (n : Nat) : List Nat :=
  if n = 0 then [48] else ((natDigitsRev n n).map (fun d => 48 + d)).reverse

/-- The serialised payload
`{"u":u,"n":n,"r":r,"exp":e}` with `separators=(",", ":")`. -/
def jsonDumps (u n r : List Nat) (e : Nat) : List Nat :=
  [123, 34, 117, 34, 58, 34] ++ escString u ++
  [34, 44, 34, 110, 34, 58, 34] ++ escString n ++
  [34, 44, 34, 114, 34, 58, 34] ++ escString r ++
  [34, 44, 34, 101, 120, 112, 34, 58] ++ natDecimal e ++ [125]

def hexValOf (c : Nat) : Option Nat :=
  if 48 ≤ c ∧ c ≤ 57 then some (c - 48)
  else if 97 ≤ c ∧ c ≤ 102 then some (c - 87)
  else if 65 ≤ c ∧ c ≤ 70 then some (c - 55)
  else none

def parseHex4 (a b c d : Nat) : Option Nat :=
  match hexValOf a, hexValOf b, hexValOf c, hexValOf d with
  | some x, some y, some z, some w => some (4096 * x + 256 * y + 16 * z + w)
  | _, _, _, _ => none

/-- Short escape table of the JSON string grammar. -/
def escCodeOf (e : Nat) : Option Nat :=
  if e = 34 then some 34
  else if e = 92 then some 92
  else if e = 47 then some 47
  else if e = 98 then some 8
  else if e = 102 then some 12
  else if e = 110 then some 10
  else if e = 114 then some 13
  else if e = 116 then some 9
  else none

/-- Continuation after a high-surrogate escape: expect a low-surrogate
`\\uXXXX` escape and recombine the pair into one code point. -/
def parseLowSurrogate (h : Nat) (l : List Nat) : Option (Nat × List Nat) :=
  match l with
  | 92 :: 117 :: a2 :: b2 :: d2 :: e2 :: rest2 =>
    (match parseHex4 a2 b2 d2 e2 with
    | some l2 =>
      if 56320 ≤ l2 ∧ l2 ≤ 57343 then
        some (65536 + (h - 55296) * 1024 + (l2 - 56320), rest2)
      else none
    | none => none)
  | _ => none

/-- The `\\uXXXX` handler of the JSON string grammar (input begins after
the `\\u`): four hex digits; a high surrogate must be followed by a
`\\uXXXX` low surrogate and the pair is recombined (as CPython's
`py_scanstring` does).  One deliberate restriction: a lone high-surrogate
escape not followed by a low-surrogate escape is rejected rather than
passed through — the serialiser never emits one for strings of Unicode
scalar values, so no input exercised below reaches that branch. -/
def parseUEscape (l : List Nat) : Option (Nat × List Nat) :=
  match l with
  | a :: b :: d :: e :: rest =>
    (match parseHex4 a b d e with
    | none => none
    | some h =>
      if 55296 ≤ h ∧ h ≤ 56319 then parseLowSurrogate h rest
      else some (h, rest))
  | _ => none

/-- Decode one code point at the head of a JSON string body (not the
closing quote): a `\\`-escape (`\\u` or the short table), a literal
character, or a rejected raw control character (`strict=True`). -/
def unescapeStep : List Nat → Option (Nat × List Nat)
  | [] => none
  | c :: rest =>
    if c = 92 then
      (match rest with
      | [] => none
      | e :: rest1 =>
        if e = 117 then parseUEscape rest1
        else
          (match escCodeOf e with
          | some c2 => some (c2, rest1)
          | none => none))
    else if c = 34 then none
    else if c < 32 then none
    else some (c, rest)

/-- JSON string body parser (model of CPython `py_scanstring` after the
opening quote): code points up to the closing quote, via `unescapeStep`.
`fuel` only bounds the recursion; every step consumes at least one input
character, so `length + 1` fuel (as `parseJString` passes) never runs
out. -/
def parseJStringF : Nat → List Nat → Option (List Nat × List Nat)
  | 0, _ => none
  | _ + 1, [] => none
  | f + 1, c :: rest =>
    if c = 34 then some ([], rest)
    else
      match unescapeStep (c :: rest) with
      | none => none
      | some (cp, rest2) =>
        (parseJStringF f rest2).map (fun p => (cp :: p.1, p.2))

/-- Returns the decoded code points and the input remaining after the
closing quote. -/
def parseJString (l : List Nat) : Option (List Nat × List Nat) :=
  parseJStringF (l.length + 1) l

def isDigitByte (c : Nat) : Bool := 48 ≤ c && c ≤ 57

def digitsToNat : List Nat → Nat → Nat
  | [], acc => acc
  | d :: ds, acc => digitsToNat ds (10 * acc + (d - 48))

/-- Parse a nonempty digit run (the `exp` integer). -/
def parseDigits (l : List Nat) : Option (Nat × List Nat) :=
  let ds := l.takeWhile isDigitByte
  if ds.isEmpty then none
  else some (digitsToNat ds 0, l.dropWhile isDigitByte)

/-- Require a fixed byte prefix, returning the remainder. -/
def expectBytes (pre : List Nat) (l : List Nat) : Option (List Nat) :=
  match pre, l with
  | [], l => some l
  | p :: ps, c :: cs => if c = p then expectBytes ps cs else none
  | _ :: _, [] => none

/-- Model of `json.loads` on the payload object grammar
`{"u":<str>,"n":<str>,"r":<str>,"exp":<int>}` (the exact object shape
`_make_token` serialises and `_verify_token` parses); all other JSON
shapes are mapped to `none`, which `_verify_token` treats like any parse
failure. -/
def parsePayload (l : List Nat) : Option (List Nat × List Nat × List Nat × Nat) :=
  match expectBytes [123, 34, 117, 34, 58, 34] l with
  | none => none
  | some r0 =>
    match parseJString r0 with
    | none => none
    | some (u, r0a) =>
      match expectBytes [44, 34, 110, 34, 58, 34] r0a with
      | none => none
      | some r1 =>
        match parseJString r1 with
        | none => none
        | some (n, r1a) =>
          match expectBytes [44, 34, 114, 34, 58, 34] r1a with
          | none => none
          | some r2 =>
            match parseJString r2 with
            | none => none
            | some (rr, r2a) =>
              match expectBytes [44, 34, 101, 120, 112, 34, 58] r2a with
              | none => none
              | some r3 =>
                match parseDigits r3 with
                | some (e, [125]) => some (u, n, rr, e)
                | _ => none

/-! #### The token functions -/

/-- The fallback session secret (`_session_secret` when
`st.secrets["session"]["secret"]` is absent), as UTF-8 bytes. -/
def defaultSecret : List Nat := strCodes "loeppky-session-2026-default"

/-- Embedding of `_make_token(username, name, role)`.  `now` is
`int(time.time())`; `secret` is the UTF-8 encoding of the session secret.
The payload emitted by `json.dumps` is pure ASCII, so its `.encode()` is
the identity. -/
def make_token (secret : List Nat) (now : Nat) (u n r : List Nat) : List Nat :=
  let exp := now + 21600
  let payload := jsonDumps u n r exp
  let sig := hexOfBytes (hmacSha256 secret payload)
  b64encode (payload ++ 124 :: sig)

/-- Model of `bytes.decode()` on the ASCII range: every byte sequence this
development feeds to it is ASCII (json payloads and hex digests);
non-ASCII bytes map to `none`, standing in for the `UnicodeDecodeError`
branch of the catch-all `except`. -/
def asciiDecode (bs : List Nat) : Option (List Nat) :=
  if bs.all (fun b => b < 128) then some bs else none

/-- Model of `raw.rsplit("|", 1)` followed by the 2-tuple unpacking: split
at the last `|` (byte 124); `none` when no `|` occurs (the unpacking
`ValueError` path). -/
def splitAtLastBar (l : List Nat) : Option (List Nat × List Nat) :=
  match l.reverse.dropWhile (fun c => !(c == 124)) with
  | 124 :: payloadRev =>
    some (payloadRev.reverse, (l.reverse.takeWhile (fun c => !(c == 124))).reverse)
  | _ => none

/-- Embedding of `_verify_token(token)`: base64-decode, split payload from
signature at the last `|`, recompute the HMAC and compare
(`hmac.compare_digest`, modelled as equality), parse the payload, reject
when `time.time() > payload["exp"]`.  Any failure on the way returns
`none` (the catch-all `except`). -/
def verify_token (secret : List Nat) (now : ℚ) (token : List Nat) :
    Option (List Nat × List Nat × List Nat × Nat) :=
  match b64decode token with
  | none => none
  | some rawBytes =>
    match asciiDecode rawBytes with
    | none => none
    | some raw =>
      match splitAtLastBar raw with
      | none => none
      | some (payloadStr, sig) =>
        if ¬ (sig == hexOfBytes (hmacSha256 secret payloadStr)) then none
        else match parsePayload payloadStr with
          | none => none
          | some (u, n, r, e) => if (e : ℚ) < now then none else some (u, n, r, e)

/-! ### Predicates and concrete instances used in the theorems below -/

/-- A sequence of Unicode scalar values — what a well-formed Python `str`
holds (code points below 0x110000, no surrogates).  Python strings
containing lone surrogates cannot round-trip through `json.dumps` /
`json.loads` (the parser recombines adjacent surrogate escapes), so the
round-trip statements are quantified over scalar strings. -/
def ScalarStr (s : List Nat) : Prop :=
  ∀ c ∈ s, c < 1114112 ∧ ¬ (55296 ≤ c ∧ c ≤ 57343)

instance (s : List Nat) : Decidable (ScalarStr s) := by
  unfold ScalarStr; infer_instance

/-- A cent-valued amount (what currency cells hold). -/
def centsValued (q : ℚ) : Prop := ∃ k : ℤ, q = (k : ℚ) / 100

/-- Scenario C record: `{date: "2026-02-10", amount: 42.00,
desc: "Staples Canada", matched: false}`. -/
def staplesTxn : Txn := ⟨"2026-02-10".toList, 42, "Staples Canada".toList, "N".toList⟩

/-- Scenario E record without vendor overlap (2 days before the target). -/
def scnE1 : Txn := ⟨"2026-02-08".toList, 42, "zzzz shop".toList, "N".toList⟩

/-- Scenario E record with vendor overlap (2 days after the target). -/
def scnE2 : Txn := ⟨"2026-02-12".toList, 42, "Staples Canada".toList, "N".toList⟩

/-- An unverified user holding a fresh verification token. -/
def pendingUser : UserRec :=
  ⟨"verena".toList, "Verena".toList, "v@x.ca".toList, "h".toList,
   ROLE_PERSONAL, "No".toList, "tokv".toList, "c".toList⟩

/-- A password checker for concrete scenarios: accepts exactly the stored
hash string (stands in for a bcrypt pair where the hash of `p` is `p`). -/
def eqCheckpw : List Char → List Char → Bool := fun p h => p == h

/-- A verified business user (token already cleared). -/
def verifiedUser : UserRec :=
  ⟨"colin".toList, "Colin".toList, "c@x.ca".toList, "pw".toList,
   ROLE_BUSINESS, "Yes".toList, [], "c".toList⟩

/-- The token produced by `_make_token("a", "A", "admin")` at
`time.time() = 1000` under the default secret (value cross-checked against
the Python implementation). -/
def tokenConcrete : List Nat :=
  strCodes "eyJ1IjoiYSIsIm4iOiJBIiwiciI6ImFkbWluIiwiZXhwIjoyMjYwMH18ZmQ4MzI4NWNmN2M1ZjhiMDUyYThhYmI5MjQ2OTI0MmQyZmU1NTdiZDI4YmIzZjU5MzVjM2U2Y2NhNWI1NzRkOA=="

/-! ## Theorems

General-purpose lemmas first, then one theorem per claim (with witnesses
and counterexamples where required).
-/

theorem stableInsert_perm (le : α → α → Bool) (x : α) (l : List α) :
    (stableInsert le x l).Perm (x :: l) := by
  induction l with
  | nil => simp [stableInsert]
  | cons y ys ih =>
    simp only [stableInsert]
    split
    · exact List.Perm.refl _
    · exact (ih.cons y).trans (List.Perm.swap x y ys)

theorem stableSort_perm (le : α → α → Bool) (l : List α) :
    (stableSort le l).Perm l := by
  induction l with
  | nil => simp [stableSort]
  | cons x xs ih => exact (stableInsert_perm le x (stableSort le xs)).trans (ih.cons x)

theorem pairwise_stableInsert (le : α → α → Bool)
    (htot : ∀ a b, le a b || le b a)
    (htrans : ∀ a b c, le a b = true → le b c = true → le a c = true)
    (x : α) (l : List α) (hl : l.Pairwise (fun a b => le a b = true)) :
    (stableInsert le x l).Pairwise (fun a b => le a b = true) := by
  induction l with
  | nil => simp [stableInsert]
  | cons y ys ih =>
    simp only [stableInsert]
    rcases List.pairwise_cons.mp hl with ⟨hy, hys⟩
    split
    · rename_i hxy
      refine List.pairwise_cons.mpr ⟨?_, hl⟩
      intro z hz
      rcases List.mem_cons.mp hz with hz | hz
      · subst hz; exact hxy
      · exact htrans x y z hxy (hy z hz)
    · rename_i hxy
      have hyx : le y x = true := by
        have := htot x y
        simp [Bool.eq_false_iff.mpr hxy] at this
        exact this
      refine List.pairwise_cons.mpr ⟨?_, ih hys⟩
      intro z hz
      have hz2 := (stableInsert_perm le x ys).mem_iff.mp hz
      rcases List.mem_cons.mp hz2 with hz3 | hz3
      · subst hz3; exact hyx
      · exact hy z hz3

theorem pairwise_stableSort (le : α → α → Bool)
    (htot : ∀ a b, le a b || le b a)
    (htrans : ∀ a b c, le a b = true → le b c = true → le a c = true)
    (l : List α) :
    (stableSort le l).Pairwise (fun a b => le a b = true) := by
  induction l with
  | nil => simp [stableSort]
  | cons x xs ih => exact pairwise_stableInsert le htot htrans x _ ih

theorem scoreLe_total (a b : Txn × ℚ) : scoreLe a b || scoreLe b a := by
  simp [scoreLe]
  exact le_total a.2 b.2

theorem scoreLe_trans (a b c : Txn × ℚ) :
    scoreLe a b = true → scoreLe b c = true → scoreLe a c = true := by
  simp [scoreLe]
  exact le_trans

/-- Stability of the insertion position: filtering to any fixed score
commutes with inserting (an element of a different score disappears from
the filter; one with that score lands in front of none of its peers,
since every element skipped over has a strictly smaller score). -/
theorem filter_stableInsert_score (x : Txn × ℚ) (l : List (Txn × ℚ)) (s : ℚ) :
    (stableInsert scoreLe x l).filter (fun p => p.2 == s) =
      if x.2 == s then x :: l.filter (fun p => p.2 == s)
      else l.filter (fun p => p.2 == s) := by
  induction l with
  | nil => by_cases hx : x.2 == s <;> simp [stableInsert, List.filter, hx]
  | cons y ys ih =>
    simp only [stableInsert]
    by_cases hxy : scoreLe x y
    · simp only [hxy, if_true]
      by_cases hx : x.2 == s <;> simp [List.filter, hx]
    · have hylt : y.2 < x.2 := by
        simp [scoreLe] at hxy
        exact hxy
      simp only [hxy]
      by_cases hx : (x.2 == s) = true
      · have hxs : x.2 = s := by simpa using hx
        have hy : (y.2 == s) = false := by
          simp only [beq_eq_false_iff_ne, ne_eq]
          intro hc
          rw [hc, hxs] at hylt
          exact lt_irrefl s hylt
        simp [List.filter, hy, ih, hx]
      · simp only [Bool.not_eq_true] at hx
        simp [List.filter, ih, hx]

theorem filter_stableSort_score (l : List (Txn × ℚ)) (s : ℚ) :
    (stableSort scoreLe l).filter (fun p => p.2 == s) =
      l.filter (fun p => p.2 == s) := by
  induction l with
  | nil => simp [stableSort]
  | cons x xs ih =>
    simp only [stableSort, List.filter]
    rw [filter_stableInsert_score x _ s, ih]
    by_cases hx : x.2 == s <;> simp [hx]

/-- Characterisation of membership in the candidate list. -/
theorem mem_findCandidates {txns : List Txn} {ta : ℚ} {rd : Nat}
    {v : List Char} {p : Txn × ℚ} :
    p ∈ findCandidates txns ta rd v ↔
      p.1 ∈ txns ∧ txnAlreadyMatched p.1 = false ∧
      ¬ (3 / 2 < pyAbs (p.1.total - ta)) ∧
      ∃ td, parseDate p.1.date = some td ∧ ¬ (10 < dayDiffAbs rd td) ∧
        p.2 = pyRound2 (matchScore ta (dayDiffAbs rd td) v p.1) := by
  unfold findCandidates
  rw [List.mem_filterMap]
  constructor
  · rintro ⟨t, ht, hf⟩
    by_cases h1 : txnAlreadyMatched t
    · simp [h1] at hf
    by_cases h2 : 3 / 2 < pyAbs (t.total - ta)
    · simp [h1, h2] at hf
    rcases h3 : parseDate t.date with _ | td
    · simp [h1, h2, h3] at hf
    by_cases h4 : 10 < dayDiffAbs rd td
    · simp [h1, h2, h3, h4] at hf
    simp [h1, h2, h3, h4] at hf
    subst hf
    exact ⟨ht, by simpa using h1, h2, td, h3, h4, rfl⟩
  · rintro ⟨ht, h1, h2, td, h3, h4, h5⟩
    refine ⟨p.1, ht, ?_⟩
    simp [h1, h2, h3, h4]
    rw [← h5]

theorem mem_find_matches {txns : List Txn} {ta : ℚ} {rds : List Char}
    {v : List Char} {p : Txn × ℚ} (h : p ∈ find_matches txns ta rds v) :
    ∃ rd, parseDate rds = some rd ∧ p ∈ findCandidates txns ta rd v := by
  unfold find_matches at h
  split at h
  · simp at h
  · split at h
    · simp at h
    · rename_i rd heq
      refine ⟨rd, heq, ?_⟩
      have h1 : p ∈ stableSort scoreLe (findCandidates txns ta rd v) :=
        List.take_subset 5 _ h
      exact (stableSort_perm scoreLe _).mem_iff.mp h1

/-- C8: for every record list, `find_matches` returns the empty list (and
raises no error — it is a total function in this embedding) whenever
`target_amount ≤ 0`, or the target date is absent (empty string) or
unparseable; and every returned candidate is neither flagged as matched
nor has an unparseable date — such records are silently skipped. -/
theorem C8_degenerate_inputs_and_skipping :
    (∀ txns ta rds v, ta ≤ 0 → find_matches txns ta rds v = [])
  ∧ (∀ txns ta v, find_matches txns ta [] v = [])
  ∧ (∀ txns ta rds v, parseDate rds = none → find_matches txns ta rds v = [])
  ∧ (∀ txns ta rds v p, p ∈ find_matches txns ta rds v →
      txnAlreadyMatched p.1 = false ∧ parseDate p.1.date ≠ none) := by
  refine ⟨?_, ?_, ?_, ?_⟩
  · intro txns ta rds v h
    unfold find_matches
    simp [h]
  · intro txns ta v
    unfold find_matches
    simp
  · intro txns ta rds v h
    unfold find_matches
    split
    · rfl
    · rw [h]
  · intro txns ta rds v p hp
    rcases mem_find_matches hp with ⟨rd, _, hc⟩
    rcases mem_findCandidates.mp hc with ⟨_, h1, _, td, h3, _⟩
    exact ⟨h1, by simp [h3]⟩

/-- Witness for C8 at concrete inputs. -/
theorem C8_witness :
    find_matches [staplesTxn] 0 "2026-02-12".toList "staples".toList = []
  ∧ find_matches [staplesTxn] 42 "2026-99-12".toList [] = [] := by
  constructor
  · exact C8_degenerate_inputs_and_skipping.1 _ 0 _ _ (by norm_num)
  · exact C8_degenerate_inputs_and_skipping.2.2.1 _ _ _ _ (by decide)

/-- C6: tolerance boundaries are inclusive.  A record (unmatched, parseable
date) exactly $1.50 off in amount, or exactly 10 days off in date, passes
the filters and is accepted as a candidate; one $1.51 off or 11 days off
never appears in the output. -/
theorem C6_tolerance_boundaries :
    ∀ (txns : List Txn) (ta : ℚ) (rd : Nat) (v : List Char) (t : Txn) (td : Nat),
      txnAlreadyMatched t = false → parseDate t.date = some td →
      ((t ∈ txns → pyAbs (t.total - ta) = 3 / 2 → dayDiffAbs rd td ≤ 10 →
          (t, pyRound2 (matchScore ta (dayDiffAbs rd td) v t)) ∈ findCandidates txns ta rd v)
       ∧ (t ∈ txns → dayDiffAbs rd td = 10 → pyAbs (t.total - ta) ≤ 3 / 2 →
          (t, pyRound2 (matchScore ta (dayDiffAbs rd td) v t)) ∈ findCandidates txns ta rd v)
       ∧ (pyAbs (t.total - ta) = 151 / 100 → ∀ rds s, (t, s) ∉ find_matches txns ta rds v)
       ∧ (dayDiffAbs rd td = 11 → ∀ rds s, parseDate rds = some rd →
            (t, s) ∉ find_matches txns ta rds v)) := by
  intro txns ta rd v t td hm hd
  refine ⟨?_, ?_, ?_, ?_⟩
  · intro ht h15 h10
    exact mem_findCandidates.mpr ⟨ht, hm, by rw [h15]; norm_num, td, hd,
      by omega, rfl⟩
  · intro ht h10 h15
    exact mem_findCandidates.mpr ⟨ht, hm, by rw [not_lt]; exact h15, td, hd,
      by omega, rfl⟩
  · intro h151 rds s hmem
    rcases mem_find_matches hmem with ⟨rd', _, hc⟩
    rcases mem_findCandidates.mp hc with ⟨_, _, h2, _⟩
    rw [h151] at h2
    norm_num at h2
  · intro h11 rds s hrd hmem
    rcases mem_find_matches hmem with ⟨rd', hrd', hc⟩
    rw [hrd] at hrd'
    obtain rfl : rd = rd' := Option.some.inj hrd'
    rcases mem_findCandidates.mp hc with ⟨_, _, _, td', htd', h4, _⟩
    rw [hd] at htd'
    obtain rfl : td = td' := Option.some.inj htd'
    omega

/-- Witness for C6: a record exactly $1.50 above a $42.00 target and 10
days off is accepted; $1.51 above, or 11 days off, is excluded. -/
theorem C6_witness :
    ((⟨"2026-02-20".toList, 43 + 1 / 2, [], "N".toList⟩ : Txn), (25 : ℚ)) ∈
      findCandidates [⟨"2026-02-20".toList, 43 + 1 / 2, [], "N".toList⟩] 42
        (toOrdinal 2026 2 10) []
  ∧ (∀ s, ((⟨"2026-02-10".toList, 43 + 51 / 100, [], "N".toList⟩ : Txn), s) ∉
      find_matches [⟨"2026-02-10".toList, 43 + 51 / 100, [], "N".toList⟩] 42
        "2026-02-10".toList []) := by
  constructor
  · have h := (C6_tolerance_boundaries
      [⟨"2026-02-20".toList, 43 + 1 / 2, [], "N".toList⟩] 42 (toOrdinal 2026 2 10) []
      ⟨"2026-02-20".toList, 43 + 1 / 2, [], "N".toList⟩ (toOrdinal 2026 2 20)
      (by decide) (by decide)).1 (by simp) (by unfold pyAbs; norm_num)
      (by with_unfolding_all decide)
    have hs : pyRound2 (matchScore 42
        (dayDiffAbs (toOrdinal 2026 2 10) (toOrdinal 2026 2 20)) []
        ⟨"2026-02-20".toList, 43 + 1 / 2, [], "N".toList⟩) = (25 : ℚ) := by
      with_unfolding_all decide
    rwa [hs] at h
  · intro s
    exact (C6_tolerance_boundaries
      [⟨"2026-02-10".toList, 43 + 51 / 100, [], "N".toList⟩] 42 (toOrdinal 2026 2 10) []
      ⟨"2026-02-10".toList, 43 + 51 / 100, [], "N".toList⟩ (toOrdinal 2026 2 10)
      (by decide) (by decide)).2.2.1 (by unfold pyAbs; norm_num) _ s

theorem pyAbs_intDiv100 (k : ℤ) :
    pyAbs ((k : ℚ) / 100) = ((|k| : ℤ) : ℚ) / 100 := by
  unfold pyAbs
  rcases le_or_lt 0 k with hk | hk
  · rw [if_neg, abs_of_nonneg hk]
    rw [not_lt]
    positivity
  · rw [if_pos, abs_of_neg hk]
    · push_cast
      ring
    · apply div_neg_of_neg_of_pos
      · exact_mod_cast hk
      · norm_num

theorem ratFloor_eq_floor (q : ℚ) : ratFloor q = ⌊q⌋ := Rat.floor_def.symm

theorem ratFloor_intCast (m : ℤ) : ratFloor ((m : ℚ)) = m := by
  rw [ratFloor_eq_floor, Int.floor_intCast]

theorem pyRound2_tenth (m : ℤ) : pyRound2 ((m : ℚ) / 10) = (m : ℚ) / 10 := by
  have hx : (m : ℚ) / 10 * 100 = ((10 * m : ℤ) : ℚ) := by push_cast; ring
  unfold pyRound2
  simp only [hx, ratFloor_intCast, sub_self]
  rw [if_pos (by norm_num : (0 : ℚ) < 1 / 2)]
  push_cast
  ring

/-- Unfolding of `matchScore` into the form the claim states. -/
theorem matchScore_eq (ta : ℚ) (dd : Nat) (v : List Char) (t : Txn) :
    matchScore ta dd v t =
      pyAbs (t.total - ta) * 10 + (dd : ℚ) -
        (if v ≠ [] ∧ vendorHit v t.desc = true then 5 else 0) := by
  unfold matchScore
  by_cases hv : v.isEmpty
  · have : v = [] := List.isEmpty_iff.mp hv
    simp [hv, this]
  · have hne : v ≠ [] := by simpa [List.isEmpty_iff] using hv
    by_cases hhit : vendorHit v t.desc
    · simp [hv, hne, hhit]
    · simp [hv, hne, hhit]

/-- On cent-valued amounts the score is a multiple of 1/10, and
`round(score, 2)` is the identity on it. -/
theorem pyRound2_matchScore (ta : ℚ) (dd : Nat) (v : List Char) (t : Txn)
    (hta : centsValued ta) (htot : centsValued t.total) :
    pyRound2 (matchScore ta dd v t) = matchScore ta dd v t := by
  rcases hta with ⟨a, ha⟩
  rcases htot with ⟨b, hb⟩
  have hdiff : t.total - ta = ((b - a : ℤ) : ℚ) / 100 := by
    rw [ha, hb]; push_cast; ring
  have habs : pyAbs (t.total - ta) = ((|b - a| : ℤ) : ℚ) / 100 := by
    rw [hdiff, pyAbs_intDiv100]
  have hform : ∃ m : ℤ, matchScore ta dd v t = (m : ℚ) / 10 := by
    rw [matchScore_eq, habs]
    by_cases hc : v ≠ [] ∧ vendorHit v t.desc = true
    · exact ⟨|b - a| + 10 * dd - 50, by rw [if_pos hc]; push_cast; ring⟩
    · exact ⟨|b - a| + 10 * dd, by rw [if_neg hc]; push_cast; ring⟩
  rcases hform with ⟨m, hm⟩
  rw [hm, pyRound2_tenth]

/-- C5: every returned candidate's score is exactly
`|amount_diff| * 10 + |date_diff_days|`, minus a bonus of 5 exactly when
the vendor text is non-empty and overlaps the description (long-token
substring or first-6-characters substring); and on Scenario C the single
record is returned as sole candidate with score −3 ≤ 2. -/
theorem C5_scoring :
    (∀ txns (ta : ℚ) rds v (t : Txn) (s : ℚ) rd td,
       (t, s) ∈ find_matches txns ta rds v →
       parseDate rds = some rd → parseDate t.date = some td →
       centsValued ta → centsValued t.total →
       s = pyAbs (t.total - ta) * 10 + (dayDiffAbs rd td : ℚ) -
           (if v ≠ [] ∧ vendorHit v t.desc = true then 5 else 0))
  ∧ find_matches [staplesTxn] 42 "2026-02-12".toList "staples".toList
      = [(staplesTxn, -3)]
  ∧ (-3 : ℚ) ≤ 2 := by
  refine ⟨?_, by with_unfolding_all decide, by norm_num⟩
  intro txns ta rds v t s rd td hmem hrd htd hca hcb
  rcases mem_find_matches hmem with ⟨rd', hrd', hc⟩
  rw [hrd] at hrd'
  obtain rfl : rd = rd' := Option.some.inj hrd'
  rcases mem_findCandidates.mp hc with ⟨_, _, _, td', htd', _, hs⟩
  rw [htd] at htd'
  obtain rfl : td = td' := Option.some.inj htd'
  simp only at hs
  rw [hs, pyRound2_matchScore _ _ _ _ hca hcb, matchScore_eq]

/-- Witness for C5: the score formula instantiated on Scenario C. -/
theorem C5_witness :
    (-3 : ℚ) = pyAbs (staplesTxn.total - 42) * 10 +
      ((dayDiffAbs (toOrdinal 2026 2 12) (toOrdinal 2026 2 10)) : ℚ) -
      (if "staples".toList ≠ [] ∧ vendorHit "staples".toList staplesTxn.desc = true
        then 5 else 0) := by
  exact C5_scoring.1 [staplesTxn] 42 "2026-02-12".toList "staples".toList
    staplesTxn (-3) (toOrdinal 2026 2 12) (toOrdinal 2026 2 10)
    (by with_unfolding_all decide) (by decide) (by decide)
    ⟨4200, by norm_num⟩ ⟨4200, by norm_num [staplesTxn]⟩

/-- C7: the matcher output is sorted ascending by score and truncated to at
most 5; equal-score candidates keep their original input order (the sort
is stable: filtering to any fixed score commutes with it); Scenario E: of
two equal-amount, equidistant candidates, the vendor-overlapping one is
ranked first. -/
theorem C7_order_truncation_stability :
    (∀ txns ta rds v, (find_matches txns ta rds v).Pairwise (fun p q => p.2 ≤ q.2))
  ∧ (∀ txns ta rds v, (find_matches txns ta rds v).length ≤ 5)
  ∧ (∀ txns ta rd v s,
      (stableSort scoreLe (findCandidates txns ta rd v)).filter (fun p => p.2 == s)
        = (findCandidates txns ta rd v).filter (fun p => p.2 == s))
  ∧ find_matches [scnE1, scnE2] 42 "2026-02-10".toList "staples".toList
      = [(scnE2, -3), (scnE1, 2)] := by
  refine ⟨?_, ?_, ?_, by with_unfolding_all decide⟩
  · intro txns ta rds v
    unfold find_matches
    split
    · simp
    · split
      · simp
      · rename_i rd heq
        have hp := pairwise_stableSort scoreLe scoreLe_total scoreLe_trans
          (findCandidates txns ta rd v)
        have hp2 : (stableSort scoreLe (findCandidates txns ta rd v)).Pairwise
            (fun p q : Txn × ℚ => p.2 ≤ q.2) := by
          refine hp.imp ?_
          intro a b h
          simpa [scoreLe] using h
        exact hp2.sublist (List.take_sublist 5 _)
  · intro txns ta rds v
    unfold find_matches
    split
    · simp
    · split
      · simp
      · exact List.length_take_le 5 _
  · intro txns ta rd v s
    exact filter_stableSort_score _ s

theorem findTokenIdx_some {token : List Char} :
    ∀ {users : List UserRec} {i : Nat} {u : UserRec},
      findTokenIdx token users = some (i, u) →
      users[i]? = some u ∧ u.verifyToken = token := by
  intro users
  induction users with
  | nil => intro i u h; simp [findTokenIdx] at h
  | cons w ws ih =>
    intro i u h
    simp only [findTokenIdx] at h
    by_cases hw : w.verifyToken == token
    · rw [if_pos hw] at h
      obtain ⟨rfl, rfl⟩ : i = 0 ∧ w = u := by
        have := Option.some.inj h
        exact ⟨(Prod.mk.injEq _ _ _ _ ▸ this).1.symm, (Prod.mk.injEq _ _ _ _ ▸ this).2⟩
      exact ⟨by simp, by simpa using hw⟩
    · rw [if_neg hw] at h
      rcases Option.map_eq_some'.mp h with ⟨⟨j, v⟩, hj, hjv⟩
      obtain ⟨rfl, rfl⟩ : i = j + 1 ∧ v = u := by
        have := Prod.mk.injEq _ _ _ _ ▸ hjv
        exact ⟨this.1.symm, this.2⟩
      rcases ih hj with ⟨h1, h2⟩
      exact ⟨by simpa using h1, h2⟩

theorem findTokenIdx_none {token : List Char} :
    ∀ {users : List UserRec},
      (∀ (j : Nat) (w : UserRec), users[j]? = some w → w.verifyToken ≠ token) →
      findTokenIdx token users = none := by
  intro users
  induction users with
  | nil => intro _; rfl
  | cons w ws ih =>
    intro h
    have hw : (w.verifyToken == token) = false :=
      beq_eq_false_iff_ne.mpr (h 0 w (by simp))
    have hrest : findTokenIdx token ws = none :=
      ih (fun j v hj => h (j + 1) v (by simpa using hj))
    simp [findTokenIdx, hw, hrest]

/-- C2 (amended): after a token has been redeemed once, a second call with
the same token fails with the invalid-token error (redemption clears the
token, and `_find_by_token` can no longer match it, provided the token
identified a single row); the "already verified" idempotent success
applies only when the token is still stored on an already-verified row,
in which case both calls succeed and the store is unchanged. -/
theorem C2_verify_email_second_call :
    ∀ (users : List UserRec) (token : List Char) (i : Nat) (u : UserRec),
      find_by_token users token = some (i, u) →
      ((u.verified = "Yes".toList →
          verify_email users token = (users, true, .alreadyVerified) ∧
          verify_email (verify_email users token).1 token
            = (users, true, .alreadyVerified))
       ∧ (u.verified ≠ "Yes".toList →
          (verify_email users token).2.1 = true ∧
          ((∀ j < users.length, ∀ w : UserRec, users[j]? = some w →
              w.verifyToken = token → j = i) →
            verify_email (verify_email users token).1 token
              = ((verify_email users token).1, false, .invalidToken)))) := by
  intro users token i u hfind
  have hne : token.isEmpty = false := by
    by_contra hc
    simp only [Bool.not_eq_false] at hc
    simp [find_by_token, hc] at hfind
  have hidx : findTokenIdx token users = some (i, u) := by
    simpa [find_by_token, hne] using hfind
  rcases findTokenIdx_some hidx with ⟨hget, htok⟩
  have hilen : i < users.length := by
    by_contra hc
    rw [List.getElem?_eq_none (by omega)] at hget
    exact Option.noConfusion hget
  constructor
  · intro hver
    have hbeq : (u.verified == "Yes".toList) = true := by
      rw [hver]; exact beq_self_eq_true _
    have h1 : verify_email users token = (users, true, .alreadyVerified) := by
      unfold verify_email
      rw [hfind]
      dsimp only
      rw [hbeq]
      simp
    rw [h1]
    exact ⟨rfl, h1⟩
  · intro hver
    have hbeq : (u.verified == "Yes".toList) = false := beq_eq_false_iff_ne.mpr hver
    have h1 : verify_email users token =
        (users.set i { u with verified := "Yes".toList, verifyToken := [] },
         true, .verifiedNow) := by
      unfold verify_email
      rw [hfind]
      dsimp only
      rw [hbeq]
      simp
    refine ⟨by rw [h1], ?_⟩
    intro huniq
    have htok_ne : token ≠ [] := by
      intro hc
      rw [hc] at hne
      simp at hne
    have hnone : findTokenIdx token
        (users.set i { u with verified := "Yes".toList, verifyToken := [] }) = none := by
      apply findTokenIdx_none
      intro j w hj
      by_cases hij : j = i
      · subst hij
        rw [List.getElem?_set_eq_of_lt _ hilen] at hj
        obtain rfl : { u with verified := "Yes".toList, verifyToken := [] } = w :=
          Option.some.inj hj
        simpa using (Ne.symm htok_ne)
      · rw [List.getElem?_set_ne (by omega)] at hj
        intro hc
        have hjlen : j < users.length := by
          by_contra hcl
          rw [List.getElem?_eq_none (by omega)] at hj
          exact Option.noConfusion hj
        exact hij (huniq j hjlen w hj hc)
    rw [h1]
    unfold verify_email find_by_token
    rw [hne]
    simp only [Bool.false_eq_true, if_false]
    rw [hnone]

/-- Counterexample to C2 as stated: redeeming a fresh token succeeds, but
the second call with the very same token fails (the claim says both
succeed). -/
theorem C2_counterexample :
    (verify_email [pendingUser] "tokv".toList).2.1 = true
  ∧ (verify_email (verify_email [pendingUser] "tokv".toList).1
      "tokv".toList).2.1 = false := by decide

/-- Witness for C2 (amended) at the concrete single-user store. -/
theorem C2_witness :
    verify_email (verify_email [pendingUser] "tokv".toList).1 "tokv".toList
      = ((verify_email [pendingUser] "tokv".toList).1, false, .invalidToken) := by
  have h := C2_verify_email_second_call [pendingUser] "tokv".toList 0 pendingUser
    (by decide)
  exact (h.2 (by decide)).2 (by decide)

/-- C3 (amended): the Sign In handler checks the verified flag before the
password, so: user not found → generic credentials error; user found but
unverified → "not verified" warning regardless of the password; user
found, verified, and password check fails → generic credentials error. -/
theorem C3_auth_error_taxonomy :
    ∀ (checkpw : List Char → List Char → Bool) (level : List Char)
      (users : List UserRec) (uIn pIn : List Char),
      (findUserIdx (pyStrip uIn) users = none →
        signIn checkpw level users uIn pIn = .invalidCredentials)
    ∧ (∀ i u, findUserIdx (pyStrip uIn) users = some (i, u) →
        u.verified ≠ "Yes".toList →
        signIn checkpw level users uIn pIn = .notVerified)
    ∧ (∀ i u, findUserIdx (pyStrip uIn) users = some (i, u) →
        u.verified = "Yes".toList → checkpw pIn u.pwHash = false →
        signIn checkpw level users uIn pIn = .invalidCredentials) := by
  intro checkpw level users uIn pIn
  refine ⟨?_, ?_, ?_⟩
  · intro h
    simp [signIn, h]
  · intro i u h hver
    have hbeq : (u.verified == "Yes".toList) = false := beq_eq_false_iff_ne.mpr hver
    unfold signIn
    rw [h]
    dsimp only
    rw [hbeq]
    simp
  · intro i u h hver hpw
    have hbeq : (u.verified == "Yes".toList) = true := by
      rw [hver]; exact beq_self_eq_true _
    unfold signIn
    rw [h]
    dsimp only
    rw [hbeq, hpw]
    simp

/-- Counterexample to C3 as stated: an existing user with a wrong password
yields the "not verified" warning, not `InvalidCredentials`, when the
verified flag is false — the password is not even checked. -/
theorem C3_counterexample :
    eqCheckpw "wrong".toList pendingUser.pwHash = false
  ∧ signIn eqCheckpw ROLE_BUSINESS [pendingUser] "verena".toList "wrong".toList
      = .notVerified := by decide

/-- Witness for C3 (amended): missing user, unverified user, and verified
user with wrong password, on concrete stores. -/
theorem C3_witness :
    signIn eqCheckpw ROLE_BUSINESS [] "nobody".toList "x".toList
      = .invalidCredentials
  ∧ signIn eqCheckpw ROLE_BUSINESS [verifiedUser] "colin".toList "wrong".toList
      = .invalidCredentials := by
  constructor
  · exact (C3_auth_error_taxonomy eqCheckpw ROLE_BUSINESS [] "nobody".toList
      "x".toList).1 (by decide)
  · exact (C3_auth_error_taxonomy eqCheckpw ROLE_BUSINESS [verifiedUser]
      "colin".toList "wrong".toList).2.2 0 verifiedUser (by decide) (by decide)
      (by decide)

/-- C4: a registration on the empty store creates the user with role
`admin`; every registration that succeeds on a non-empty store appends the
user with the default role `personal` (and the store only ever grows by
that one appended row). -/
theorem C4_first_user_admin :
    ∀ (hashpw : List Char → List Char) (token created : List Char)
      (emailSent : Bool) (username name email password : List Char),
      (register hashpw token created emailSent [] username name email password =
        ([⟨username, name, email, hashpw password, ROLE_ADMIN, "No".toList,
           token, created⟩], true,
          if emailSent then RegOutcome.createdEmailed
          else RegOutcome.createdManual true))
    ∧ (∀ users us' res, users ≠ [] →
        register hashpw token created emailSent users username name email password
          = (us', true, res) →
        us' = users ++ [⟨username, name, email, hashpw password, ROLE_PERSONAL,
          "No".toList, token, created⟩]) := by
  intro hashpw token created emailSent username name email password
  constructor
  · simp [register, dupCheck]
  · intro users us' res hne hreg
    unfold register at hreg
    rcases hdc : dupCheck username email users with _ | o
    · rw [hdc] at hreg
      have hemp : users.isEmpty = false := by
        simpa [List.isEmpty_iff] using hne
      simp only [hemp, Bool.false_eq_true, if_false] at hreg
      have := (Prod.mk.injEq _ _ _ _ ▸ hreg).1
      exact this.symm
    · rw [hdc] at hreg
      simp at hreg

/-- Witness for C4: registering "dana" on a store already holding a user
appends her with the default `personal` role. -/
theorem C4_witness :
    (register (fun p => p) "t2".toList "cr".toList false [verifiedUser]
        "dana".toList "Dana".toList "d@x.ca".toList "pw12345".toList).1
      = [verifiedUser] ++ [⟨"dana".toList, "Dana".toList, "d@x.ca".toList,
          "pw12345".toList, ROLE_PERSONAL, "No".toList, "t2".toList, "cr".toList⟩] := by
  refine (C4_first_user_admin (fun p => p) "t2".toList "cr".toList false
    "dana".toList "Dana".toList "d@x.ca".toList "pw12345".toList).2
    [verifiedUser] _ (.createdManual false) (by decide) ?_
  decide

/-- C10: email verification with an empty token always fails with the
invalid-token error, whatever the store holds — `_find_by_token` rejects
empty tokens up front, so the cleared (already-used) token of a verified
user can never be matched and redeemed again. -/
theorem C10_empty_token_always_fails :
    ∀ users : List UserRec,
      find_by_token users [] = none
    ∧ verify_email users [] = (users, false, .invalidToken) := by
  intro users
  refine ⟨?_, ?_⟩
  · simp [find_by_token]
  · simp [verify_email, find_by_token]

/-- C9: every `require_auth` call that succeeds against an active session
resets that session's expiry to now + the full 6-hour TTL (sliding
expiry); concretely, a session created at hour 0 (expiry 6) and touched at
hour 5 carries expiry 11 and is still valid at hour 10, while the same
session never touched after creation hits the lazy expiry check at hour 7
and falls back to the login page.  Times are in hours. -/
theorem C9_sliding_expiry :
    (∀ level now cookie st st',
        requireAuth level now cookie st = (st', .allowed) →
        ∃ s, st'.session = some s ∧ s.expires = now + SESSION_HOURS)
  ∧ (requireAuth ROLE_BUSINESS 5 none
        ⟨some ⟨"c".toList, "C".toList, ROLE_BUSINESS, 6⟩, false⟩
      = (⟨some ⟨"c".toList, "C".toList, ROLE_BUSINESS, 11⟩, false⟩, .allowed))
  ∧ (requireAuth ROLE_BUSINESS 10 none
        ⟨some ⟨"c".toList, "C".toList, ROLE_BUSINESS, 11⟩, false⟩
      = (⟨some ⟨"c".toList, "C".toList, ROLE_BUSINESS, 16⟩, false⟩, .allowed))
  ∧ (requireAuth ROLE_BUSINESS 7 none
        ⟨some ⟨"c".toList, "C".toList, ROLE_BUSINESS, 6⟩, false⟩
      = (⟨none, false⟩, .loginPage)) := by
  refine ⟨?_, by with_unfolding_all decide, by with_unfolding_all decide,
    by with_unfolding_all decide⟩
  intro level now cookie st st' h
  rcases st with ⟨sess, hl⟩
  have main : ∀ (st2 : AuthState),
      (match st2.session with
       | some s =>
         let st3 : AuthState :=
           { st2 with session := some { s with expires := now + SESSION_HOURS } }
         if level == ROLE_BUSINESS && ¬ (s.role == ROLE_BUSINESS || s.role == ROLE_ADMIN) then
           (st3, AuthOutcome.deniedRole)
         else if level == ROLE_PERSONAL && ¬ (s.role == ROLE_PERSONAL || s.role == ROLE_ADMIN) then
           (st3, AuthOutcome.deniedRole)
         else if level == ROLE_PERSONAL && ¬ st3.health then (st3, AuthOutcome.healthPrompt)
         else (st3, AuthOutcome.allowed)
       | none => (st2, AuthOutcome.loginPage)) = (st', AuthOutcome.allowed) →
      ∃ s, st'.session = some s ∧ s.expires = now + SESSION_HOURS := by
    intro st2 h2
    rcases hs : st2.session with _ | s
    · rw [hs] at h2
      exact absurd (Prod.mk.injEq _ _ _ _ ▸ h2).2 (by intro hc; cases hc)
    · rw [hs] at h2
      dsimp only at h2
      split_ifs at h2 with h1 h2' h3
      · exact absurd (Prod.mk.injEq _ _ _ _ ▸ h2).2 (by intro hc; cases hc)
      · exact absurd (Prod.mk.injEq _ _ _ _ ▸ h2).2 (by intro hc; cases hc)
      · exact absurd (Prod.mk.injEq _ _ _ _ ▸ h2).2 (by intro hc; cases hc)
      · have hst : st' = { st2 with session := some { s with expires := now + SESSION_HOURS } } :=
          ((Prod.mk.injEq _ _ _ _ ▸ h2).1).symm
        exact ⟨{ s with expires := now + SESSION_HOURS }, by rw [hst], rfl⟩
  unfold requireAuth at h
  exact main _ h

theorem b64CharOf_spec : ∀ v < 64,
    isB64Char (b64CharOf v) = true ∧ b64ValOf (b64CharOf v) = v ∧
    b64CharOf v ≠ 61 ∧ b64CharOf v < 128 := by decide

theorem b64encode_chars :
    ∀ bs : List Nat, (∀ b ∈ bs, b < 256) →
      ∀ c ∈ b64encode bs, (isB64Char c || c == 61) = true := by
  intro bs
  induction bs using b64encode.induct with
  | case1 => intro _ c hc; simp [b64encode] at hc
  | case2 a =>
    intro h c hc
    have ha : a < 256 := h a (by simp)
    simp only [b64encode, List.mem_cons, List.not_mem_nil, or_false] at hc
    rcases hc with rfl | rfl | rfl | rfl
    · simp [(b64CharOf_spec (a / 4) (by omega)).1]
    · simp [(b64CharOf_spec (a % 4 * 16) (by omega)).1]
    · rfl
    · rfl
  | case3 a b =>
    intro h c hc
    have ha : a < 256 := h a (by simp)
    have hb : b < 256 := h b (by simp)
    simp only [b64encode, List.mem_cons, List.not_mem_nil, or_false] at hc
    rcases hc with rfl | rfl | rfl | rfl
    · simp [(b64CharOf_spec (a / 4) (by omega)).1]
    · simp [(b64CharOf_spec (a % 4 * 16 + b / 16) (by omega)).1]
    · simp [(b64CharOf_spec (b % 16 * 4) (by omega)).1]
    · rfl
  | case4 a b c rest ih =>
    intro h d hd
    have ha : a < 256 := h a (by simp)
    have hb : b < 256 := h b (by simp)
    have hc : c < 256 := h c (by simp)
    simp only [b64encode, List.mem_cons] at hd
    rcases hd with rfl | rfl | rfl | rfl | hd
    · simp [(b64CharOf_spec (a / 4) (by omega)).1]
    · simp [(b64CharOf_spec (a % 4 * 16 + b / 16) (by omega)).1]
    · simp [(b64CharOf_spec (b % 16 * 4 + c / 64) (by omega)).1]
    · simp [(b64CharOf_spec (c % 64) (by omega)).1]
    · exact ih (fun x hx => h x (by simp [hx])) d hd

theorem b64decodeQuads_encode :
    ∀ bs : List Nat, (∀ b ∈ bs, b < 256) →
      b64decodeQuads (b64encode bs) = some bs := by
  intro bs
  induction bs using b64encode.induct with
  | case1 => intro _; rfl
  | case2 a =>
    intro h
    have ha : a < 256 := h a (by simp)
    have h1 := b64CharOf_spec (a / 4) (by omega)
    have h2 := b64CharOf_spec (a % 4 * 16) (by omega)
    simp only [b64encode, b64decodeQuads, and_self, if_true, h1.1, h2.1,
      Bool.and_self, Bool.true_and]
    rw [h1.2.1, h2.2.1]
    have : a / 4 * 4 + a % 4 * 16 / 16 = a := by omega
    rw [this]
  | case3 a b =>
    intro h
    have ha : a < 256 := h a (by simp)
    have hb : b < 256 := h b (by simp)
    have h1 := b64CharOf_spec (a / 4) (by omega)
    have h2 := b64CharOf_spec (a % 4 * 16 + b / 16) (by omega)
    have h3 := b64CharOf_spec (b % 16 * 4) (by omega)
    simp only [b64decodeQuads, b64encode]
    rw [if_neg (by intro hcc; exact h3.2.2.1 hcc.1), if_pos (by trivial),
      if_pos (by simp [h1.1, h2.1, h3.1])]
    rw [h1.2.1, h2.2.1, h3.2.1]
    have e1 : a / 4 * 4 + (a % 4 * 16 + b / 16) / 16 = a := by omega
    have e2 : (a % 4 * 16 + b / 16) % 16 * 16 + b % 16 * 4 / 4 = b := by omega
    rw [e1, e2]
  | case4 a b c rest ih =>
    intro h
    have ha : a < 256 := h a (by simp)
    have hb : b < 256 := h b (by simp)
    have hc : c < 256 := h c (by simp)
    have h1 := b64CharOf_spec (a / 4) (by omega)
    have h2 := b64CharOf_spec (a % 4 * 16 + b / 16) (by omega)
    have h3 := b64CharOf_spec (b % 16 * 4 + c / 64) (by omega)
    have h4 := b64CharOf_spec (c % 64) (by omega)
    simp only [b64decodeQuads, b64encode]
    rw [if_neg (by intro hcc; exact h3.2.2.1 hcc.1), if_neg h4.2.2.1,
      if_pos (by simp [h1.1, h2.1, h3.1, h4.1])]
    rw [ih (fun x hx => h x (by simp [hx]))]
    simp only [Option.map_some']
    rw [h1.2.1, h2.2.1, h3.2.1, h4.2.1]
    have e1 : a / 4 * 4 + (a % 4 * 16 + b / 16) / 16 = a := by omega
    have e2 : (a % 4 * 16 + b / 16) % 16 * 16 + (b % 16 * 4 + c / 64) / 4 = b := by
      omega
    have e3 : (b % 16 * 4 + c / 64) % 4 * 64 + c % 64 = c := by omega
    rw [e1, e2, e3]

theorem b64decode_encode (bs : List Nat) (h : ∀ b ∈ bs, b < 256) :
    b64decode (b64encode bs) = some bs := by
  unfold b64decode
  rw [List.filter_eq_self.mpr (b64encode_chars bs h)]
  exact b64decodeQuads_encode bs h

theorem beBytes_lt : ∀ k n : Nat, ∀ b ∈ beBytes k n, b < 256 := by
  intro k
  induction k with
  | zero => intro n b hb; simp [beBytes] at hb
  | succ k ih =>
    intro n b hb
    simp only [beBytes] at hb
    rcases List.mem_append.mp hb with hb | hb
    · exact ih _ b hb
    · simp only [List.mem_singleton] at hb
      subst hb
      exact Nat.mod_lt _ (by norm_num)

theorem foldr_beBytes_lt :
    ∀ ws : List Nat, ∀ b ∈ ws.foldr (fun w acc => beBytes 4 w ++ acc) [],
      b < 256 := by
  intro ws
  induction ws with
  | nil => intro b hb; simp at hb
  | cons w ws ih =>
    intro b hb
    simp only [List.foldr_cons] at hb
    rcases List.mem_append.mp hb with hb | hb
    · exact beBytes_lt 4 w b hb
    · exact ih b hb

theorem sha256_bytes_lt (m : List Nat) : ∀ b ∈ sha256 m, b < 256 := by
  unfold sha256
  exact foldr_beBytes_lt _

theorem hexDigitL_range : ∀ x < 16,
    ((48 ≤ hexDigitL x ∧ hexDigitL x ≤ 57) ∨ (97 ≤ hexDigitL x ∧ hexDigitL x ≤ 102)) := by
  decide

theorem hexOfBytes_range :
    ∀ bs : List Nat, (∀ b ∈ bs, b < 256) → ∀ c ∈ hexOfBytes bs,
      ((48 ≤ c ∧ c ≤ 57) ∨ (97 ≤ c ∧ c ≤ 102)) := by
  intro bs
  induction bs with
  | nil => intro _ c hc; simp [hexOfBytes] at hc
  | cons b rest ih =>
    intro h c hc
    have hb : b < 256 := h b (by simp)
    simp only [hexOfBytes, List.mem_cons] at hc
    rcases hc with rfl | rfl | hc
    · exact hexDigitL_range (b / 16) (by omega)
    · exact hexDigitL_range (b % 16) (by omega)
    · exact ih (fun x hx => h x (by simp [hx])) c hc

theorem hexOfBytes_hmac_range (secret msg : List Nat) :
    ∀ c ∈ hexOfBytes (hmacSha256 secret msg),
      ((48 ≤ c ∧ c ≤ 57) ∨ (97 ≤ c ∧ c ≤ 102)) :=
  hexOfBytes_range _ (sha256_bytes_lt _)

theorem escapeChar_lt (c : Nat) : ∀ b ∈ escapeChar c, b < 128 := by
  have hhex : ∀ x < 16, hexDigitL x < 128 := by decide
  have hH : ∀ n : Nat, ∀ b ∈ hex4 n, b < 128 := by
    intro n b hb
    simp only [hex4, List.mem_cons, List.not_mem_nil, or_false] at hb
    rcases hb with rfl | rfl | rfl | rfl <;>
      exact hhex _ (Nat.mod_lt _ (by norm_num))
  intro b hb
  unfold escapeChar at hb
  split_ifs at hb with h1 h2 h3 h4 h5 h6 h7 h8 h9 h10 <;>
    simp only [List.mem_cons, List.mem_append, List.not_mem_nil, or_false] at hb <;>
    first
      | (rcases hb with rfl | rfl <;> omega)
      | (rcases hb with (rfl | rfl | hb) | (rfl | rfl | hb) <;>
          first | omega | exact hH _ b hb)
      | (rcases hb with rfl | rfl | hb <;> first | omega | exact hH _ b hb)

theorem escString_lt : ∀ s : List Nat, ∀ b ∈ escString s, b < 128 := by
  intro s
  induction s with
  | nil => intro b hb; simp [escString] at hb
  | cons c cs ih =>
    intro b hb
    simp only [escString] at hb
    rcases List.mem_append.mp hb with hb | hb
    · exact escapeChar_lt c b hb
    · exact ih b hb

theorem natDigitsRev_lt : ∀ fuel n : Nat, ∀ d ∈ natDigitsRev fuel n, d < 10 := by
  intro fuel
  induction fuel with
  | zero => intro n d hd; simp [natDigitsRev] at hd
  | succ f ih =>
    intro n d hd
    match n with
    | 0 => simp [natDigitsRev] at hd
    | m + 1 =>
      simp only [natDigitsRev, List.mem_cons] at hd
      rcases hd with rfl | hd
      · exact Nat.mod_lt _ (by norm_num)
      · exact ih _ d hd

theorem natDecimal_digits : ∀ n : Nat, ∀ d ∈ natDecimal n, 48 ≤ d ∧ d ≤ 57 := by
  intro n d hd
  unfold natDecimal at hd
  split_ifs at hd
  · simp only [List.mem_singleton] at hd
    omega
  · rw [List.mem_reverse] at hd
    rcases List.mem_map.mp hd with ⟨x, hx, rfl⟩
    have := natDigitsRev_lt n n x hx
    omega

theorem forall_mem_append_lt {l1 l2 : List Nat}
    (h1 : ∀ b ∈ l1, b < 128) (h2 : ∀ b ∈ l2, b < 128) :
    ∀ b ∈ l1 ++ l2, b < 128 := by
  intro b hb
  rcases List.mem_append.mp hb with hb | hb
  · exact h1 b hb
  · exact h2 b hb

theorem jsonDumps_lt (u n r : List Nat) (e : Nat) :
    ∀ b ∈ jsonDumps u n r e, b < 128 := by
  unfold jsonDumps
  have hdec : ∀ b ∈ natDecimal e, b < 128 := by
    intro b hb
    have := natDecimal_digits e b hb
    omega
  exact forall_mem_append_lt (forall_mem_append_lt (forall_mem_append_lt
    (forall_mem_append_lt (forall_mem_append_lt (forall_mem_append_lt
      (forall_mem_append_lt (forall_mem_append_lt (by decide) (escString_lt u))
        (by decide)) (escString_lt n)) (by decide)) (escString_lt r))
      (by decide)) hdec) (by decide)

theorem takeWhile_append_all (P : α → Bool) (l1 l2 : List α)
    (h : ∀ c ∈ l1, P c = true) :
    (l1 ++ l2).takeWhile P = l1 ++ l2.takeWhile P := by
  induction l1 with
  | nil => simp
  | cons c t ih =>
    simp only [List.cons_append, List.takeWhile_cons, h c (by simp), if_true]
    rw [ih (fun x hx => h x (by simp [hx]))]

theorem dropWhile_append_all (P : α → Bool) (l1 l2 : List α)
    (h : ∀ c ∈ l1, P c = true) :
    (l1 ++ l2).dropWhile P = l2.dropWhile P := by
  induction l1 with
  | nil => simp
  | cons c t ih =>
    simp only [List.cons_append, List.dropWhile_cons, h c (by simp), if_true]
    exact ih (fun x hx => h x (by simp [hx]))

theorem hexValOf_hexDigitL : ∀ x < 16, hexValOf (hexDigitL x) = some x := by
  decide

theorem parseHex4_hex4 (c : Nat) (h : c < 65536) :
    parseHex4 (hexDigitL (c / 4096 % 16)) (hexDigitL (c / 256 % 16))
      (hexDigitL (c / 16 % 16)) (hexDigitL (c % 16)) = some c := by
  unfold parseHex4
  rw [hexValOf_hexDigitL _ (Nat.mod_lt _ (by norm_num)),
      hexValOf_hexDigitL _ (Nat.mod_lt _ (by norm_num)),
      hexValOf_hexDigitL _ (Nat.mod_lt _ (by norm_num)),
      hexValOf_hexDigitL _ (Nat.mod_lt _ (by norm_num))]
  dsimp only
  congr 1
  omega

theorem parseUEscape_cons (a b d e : Nat) (rest : List Nat) :
    parseUEscape (a :: b :: d :: e :: rest) =
      (match parseHex4 a b d e with
      | none => none
      | some h =>
        if 55296 ≤ h ∧ h ≤ 56319 then parseLowSurrogate h rest
        else some (h, rest)) := rfl

theorem parseLowSurrogate_cons (h a2 b2 d2 e2 : Nat) (rest2 : List Nat) :
    parseLowSurrogate h (92 :: 117 :: a2 :: b2 :: d2 :: e2 :: rest2) =
      (match parseHex4 a2 b2 d2 e2 with
      | some l2 =>
        if 56320 ≤ l2 ∧ l2 ≤ 57343 then
          some (65536 + (h - 55296) * 1024 + (l2 - 56320), rest2)
        else none
      | none => none) := rfl

theorem parseUEscape_hex4_bmp (c : Nat) (hlt : c < 65536)
    (hns : ¬ (55296 ≤ c ∧ c ≤ 56319)) (tail : List Nat) :
    parseUEscape (hex4 c ++ tail) = some (c, tail) := by
  simp only [hex4, List.cons_append, List.nil_append]
  rw [parseUEscape_cons, parseHex4_hex4 c hlt]
  dsimp only
  rw [if_neg hns]

theorem parseUEscape_hex4_astral (c : Nat) (hge : 65536 ≤ c)
    (hlt : c < 1114112) (tail : List Nat) :
    parseUEscape (hex4 (55296 + (c - 65536) / 1024)
      ++ 92 :: 117 :: hex4 (56320 + (c - 65536) % 1024) ++ tail)
      = some (c, tail) := by
  have hhi : 55296 + (c - 65536) / 1024 < 65536 := by omega
  have hlo : 56320 + (c - 65536) % 1024 < 65536 := by
    have := Nat.mod_lt (c - 65536) (show 0 < 1024 by norm_num)
    omega
  simp only [hex4, List.cons_append, List.nil_append, List.append_assoc]
  rw [parseUEscape_cons, parseHex4_hex4 _ hhi]
  dsimp only
  rw [if_pos (by omega)]
  rw [parseLowSurrogate_cons, parseHex4_hex4 _ hlo]
  dsimp only
  rw [if_pos (by omega)]
  have he : 65536 + (55296 + (c - 65536) / 1024 - 55296) * 1024
      + (56320 + (c - 65536) % 1024 - 56320) = c := by omega
  rw [he]

/-- The head of an escaped character is never the closing quote. -/
theorem escapeChar_head (c : Nat) :
    ∃ x xs, escapeChar c = x :: xs ∧ x ≠ 34 := by
  by_cases h1 : c = 34
  · subst h1; exact ⟨92, _, rfl, by omega⟩
  by_cases h2 : c = 92
  · subst h2; exact ⟨92, _, rfl, by omega⟩
  by_cases h3 : c = 8
  · subst h3; exact ⟨92, _, rfl, by omega⟩
  by_cases h4 : c = 9
  · subst h4; exact ⟨92, _, rfl, by omega⟩
  by_cases h5 : c = 10
  · subst h5; exact ⟨92, _, rfl, by omega⟩
  by_cases h6 : c = 12
  · subst h6; exact ⟨92, _, rfl, by omega⟩
  by_cases h7 : c = 13
  · subst h7; exact ⟨92, _, rfl, by omega⟩
  by_cases h8 : c < 32
  · refine ⟨92, 117 :: hex4 c, ?_, by omega⟩
    unfold escapeChar
    rw [if_neg h1, if_neg h2, if_neg h3, if_neg h4, if_neg h5, if_neg h6,
      if_neg h7, if_pos h8]
  by_cases h9 : c ≤ 126
  · refine ⟨c, [], ?_, h1⟩
    unfold escapeChar
    rw [if_neg h1, if_neg h2, if_neg h3, if_neg h4, if_neg h5, if_neg h6,
      if_neg h7, if_neg h8, if_pos h9]
  by_cases h10 : c < 65536
  · refine ⟨92, 117 :: hex4 c, ?_, by omega⟩
    unfold escapeChar
    rw [if_neg h1, if_neg h2, if_neg h3, if_neg h4, if_neg h5, if_neg h6,
      if_neg h7, if_neg h8, if_neg h9, if_pos h10]
  · refine ⟨92, 117 :: hex4 (55296 + (c - 65536) / 1024)
      ++ 92 :: 117 :: hex4 (56320 + (c - 65536) % 1024), ?_, by omega⟩
    unfold escapeChar
    rw [if_neg h1, if_neg h2, if_neg h3, if_neg h4, if_neg h5, if_neg h6,
      if_neg h7, if_neg h8, if_neg h9, if_neg h10]
    rfl

/-- `unescapeStep` consumes exactly the escape of a scalar code point. -/
theorem unescapeStep_escapeChar (c : Nat) (hc1 : c < 1114112)
    (hc2 : ¬ (55296 ≤ c ∧ c ≤ 57343)) (tail : List Nat) :
    unescapeStep (escapeChar c ++ tail) = some (c, tail) := by
  by_cases h1 : c = 34
  · subst h1; rfl
  by_cases h2 : c = 92
  · subst h2; rfl
  by_cases h3 : c = 8
  · subst h3; rfl
  by_cases h4 : c = 9
  · subst h4; rfl
  by_cases h5 : c = 10
  · subst h5; rfl
  by_cases h6 : c = 12
  · subst h6; rfl
  by_cases h7 : c = 13
  · subst h7; rfl
  by_cases h8 : c < 32
  · have he : escapeChar c = 92 :: 117 :: hex4 c := by
      unfold escapeChar
      rw [if_neg h1, if_neg h2, if_neg h3, if_neg h4, if_neg h5, if_neg h6,
        if_neg h7, if_pos h8]
    rw [he]
    have hstep : unescapeStep (92 :: 117 :: hex4 c ++ tail)
        = parseUEscape (hex4 c ++ tail) := rfl
    rw [List.cons_append, List.cons_append] at hstep ⊢
    rw [hstep]
    exact parseUEscape_hex4_bmp c (by omega) (by omega) tail
  by_cases h9 : c ≤ 126
  · have he : escapeChar c = [c] := by
      unfold escapeChar
      rw [if_neg h1, if_neg h2, if_neg h3, if_neg h4, if_neg h5, if_neg h6,
        if_neg h7, if_neg h8, if_pos h9]
    rw [he]
    simp only [List.cons_append, List.nil_append, unescapeStep]
    rw [if_neg h2, if_neg h1, if_neg h8]
  by_cases h10 : c < 65536
  · have he : escapeChar c = 92 :: 117 :: hex4 c := by
      unfold escapeChar
      rw [if_neg h1, if_neg h2, if_neg h3, if_neg h4, if_neg h5, if_neg h6,
        if_neg h7, if_neg h8, if_neg h9, if_pos h10]
    rw [he]
    have hstep : unescapeStep (92 :: 117 :: (hex4 c ++ tail))
        = parseUEscape (hex4 c ++ tail) := rfl
    rw [List.cons_append, List.cons_append, hstep]
    exact parseUEscape_hex4_bmp c h10 (by omega) tail
  · have he : escapeChar c = 92 :: 117 :: hex4 (55296 + (c - 65536) / 1024)
        ++ 92 :: 117 :: hex4 (56320 + (c - 65536) % 1024) := by
      unfold escapeChar
      rw [if_neg h1, if_neg h2, if_neg h3, if_neg h4, if_neg h5, if_neg h6,
        if_neg h7, if_neg h8, if_neg h9, if_neg h10]
    rw [he]
    have hstep : ∀ t : List Nat, unescapeStep (92 :: 117 :: t)
        = parseUEscape t := fun t => rfl
    rw [List.append_assoc, List.cons_append, List.cons_append, hstep]
    exact parseUEscape_hex4_astral c (by omega) hc1 tail

theorem escapeChar_ne_nil (c : Nat) : escapeChar c ≠ [] := by
  obtain ⟨x, xs, hxe, _⟩ := escapeChar_head c
  rw [hxe]
  exact List.cons_ne_nil x xs

theorem escString_length_ge : ∀ s : List Nat, s.length ≤ (escString s).length := by
  intro s
  induction s with
  | nil => simp [escString]
  | cons c cs ih =>
    simp only [escString, List.length_cons, List.length_append]
    have : 0 < (escapeChar c).length := List.length_pos.mpr (escapeChar_ne_nil c)
    omega

/-- Correctness of the fuelled string-body parser on serialiser output. -/
theorem parseJStringF_escString :
    ∀ (s : List Nat), ScalarStr s → ∀ (rest : List Nat) (f : Nat), s.length < f →
      parseJStringF f (escString s ++ 34 :: rest) = some (s, rest) := by
  intro s
  induction s with
  | nil =>
    intro _ rest f hf
    match f, hf with
    | f + 1, _ => simp [escString, parseJStringF]
  | cons c cs ih =>
    intro hs rest f hf
    match f, hf with
    | f + 1, hf =>
      have hc1 : c < 1114112 := (hs c (by simp)).1
      have hc2 : ¬ (55296 ≤ c ∧ c ≤ 57343) := (hs c (by simp)).2
      have hu := unescapeStep_escapeChar c hc1 hc2 (escString cs ++ 34 :: rest)
      obtain ⟨x, xs, hxe, hx34⟩ := escapeChar_head c
      have hes : escString (c :: cs) ++ 34 :: rest
          = x :: (xs ++ (escString cs ++ 34 :: rest)) := by
        simp [escString, hxe]
      rw [hxe, List.cons_append] at hu
      rw [hes]
      simp only [parseJStringF]
      rw [if_neg hx34, hu]
      dsimp only
      rw [ih (fun y hy => hs y (by simp [hy])) rest f (by simpa using hf)]
      rfl

/-- Correctness of the string-body parser on serialiser output: parsing
the escaped form of a scalar string followed by the closing quote yields
the string back, with the rest untouched. -/
theorem parseJString_escString (s : List Nat) (hs : ScalarStr s)
    (rest : List Nat) :
    parseJString (escString s ++ 34 :: rest) = some (s, rest) := by
  unfold parseJString
  apply parseJStringF_escString s hs rest
  have h1 := escString_length_ge s
  simp only [List.length_append, List.length_cons]
  omega

theorem digitsToNat_append (l : List Nat) (d : Nat) :
    ∀ acc, digitsToNat (l ++ [d]) acc = 10 * digitsToNat l acc + (d - 48) := by
  induction l with
  | nil => intro acc; simp [digitsToNat]
  | cons x xs ih =>
    intro acc
    simp only [List.cons_append, digitsToNat]
    exact ih _

theorem natDigitsRev_val :
    ∀ fuel n : Nat, n ≤ fuel →
      (natDigitsRev fuel n).foldr (fun d acc => d + 10 * acc) 0 = n := by
  intro fuel
  induction fuel with
  | zero =>
    intro n hn
    obtain rfl : n = 0 := by omega
    rfl
  | succ f ih =>
    intro n hn
    match n with
    | 0 => rfl
    | m + 1 =>
      simp only [natDigitsRev, List.foldr_cons]
      rw [ih ((m + 1) / 10) (by omega)]
      omega

theorem digitsToNat_rev_map (ds : List Nat) :
    digitsToNat ((ds.map (fun d => 48 + d)).reverse) 0 =
      ds.foldr (fun d acc => d + 10 * acc) 0 := by
  induction ds with
  | nil => rfl
  | cons x xs ih =>
    simp only [List.map_cons, List.reverse_cons, List.foldr_cons]
    rw [digitsToNat_append, ih]
    omega

theorem digitsToNat_natDecimal (n : Nat) : digitsToNat (natDecimal n) 0 = n := by
  unfold natDecimal
  split_ifs with h
  · subst h; rfl
  · rw [digitsToNat_rev_map, natDigitsRev_val n n le_rfl]

theorem natDecimal_ne_nil (n : Nat) : natDecimal n ≠ [] := by
  unfold natDecimal
  split_ifs with h
  · simp
  · intro hc
    rw [List.reverse_eq_nil_iff, List.map_eq_nil_iff] at hc
    match n, h with
    | m + 1, _ =>
      rw [show (m + 1 : Nat) = m + 1 from rfl] at hc
      simp only [natDigitsRev] at hc
      exact List.cons_ne_nil _ _ hc

theorem parseDigits_natDecimal (e : Nat) :
    parseDigits (natDecimal e ++ [125]) = some (e, [125]) := by
  unfold parseDigits
  have hdig : ∀ c ∈ natDecimal e, isDigitByte c = true := by
    intro c hc
    have := natDecimal_digits e c hc
    simp only [isDigitByte, Bool.and_eq_true, decide_eq_true_eq]
    omega
  rw [takeWhile_append_all _ _ _ hdig, dropWhile_append_all _ _ _ hdig]
  have ht : List.takeWhile isDigitByte [125] = [] := by decide
  have hd : List.dropWhile isDigitByte [125] = [125] := by decide
  rw [ht, hd, List.append_nil]
  rw [if_neg (by simpa [List.isEmpty_iff] using natDecimal_ne_nil e)]
  rw [digitsToNat_natDecimal]

theorem expectBytes_leading (pre : List Nat) :
    ∀ rest, expectBytes pre (pre ++ rest) = some rest := by
  induction pre with
  | nil => intro rest; rfl
  | cons p ps ih =>
    intro rest
    simp only [List.cons_append, expectBytes, if_pos rfl]
    exact ih rest

/-- Correctness of the payload parser on serialiser output: the JSON
round-trip `json.loads(json.dumps(payload))` recovers the payload for
scalar strings. -/
theorem parsePayload_jsonDumps (u n r : List Nat) (e : Nat)
    (hu : ScalarStr u) (hn : ScalarStr n) (hr : ScalarStr r) :
    parsePayload (jsonDumps u n r e) = some (u, n, r, e) := by
  have hshape : jsonDumps u n r e
      = [123, 34, 117, 34, 58, 34] ++ (escString u ++ 34 ::
        ([44, 34, 110, 34, 58, 34] ++ (escString n ++ 34 ::
          ([44, 34, 114, 34, 58, 34] ++ (escString r ++ 34 ::
            ([44, 34, 101, 120, 112, 34, 58] ++ (natDecimal e ++ [125]))))))) := by
    simp [jsonDumps]
  rw [hshape]
  unfold parsePayload
  rw [expectBytes_leading]
  dsimp only
  rw [parseJString_escString u hu]
  dsimp only
  rw [expectBytes_leading]
  dsimp only
  rw [parseJString_escString n hn]
  dsimp only
  rw [expectBytes_leading]
  dsimp only
  rw [parseJString_escString r hr]
  dsimp only
  rw [expectBytes_leading]
  dsimp only
  rw [parseDigits_natDecimal]

theorem splitAtLastBar_spec (p s : List Nat) (hs : ∀ c ∈ s, c ≠ 124) :
    splitAtLastBar (p ++ 124 :: s) = some (p, s) := by
  unfold splitAtLastBar
  have hrev : (p ++ 124 :: s).reverse = s.reverse ++ 124 :: p.reverse := by
    simp
  have hall : ∀ c ∈ s.reverse, (!(c == 124)) = true := by
    intro c hc
    simpa using hs c (List.mem_reverse.mp hc)
  rw [hrev, dropWhile_append_all _ _ _ hall, takeWhile_append_all _ _ _ hall]
  simp

/-- C1 (amended): for scalar strings u, n, r, the token built by
`_make_token` is exactly `base64(payload + "|" + hex(HMAC-SHA256(secret,
payload)))` with `exp = now + 6*3600` in the payload; `_verify_token`
recovers exactly `{u, n, r, exp}` whenever it runs at or before the
embedded expiry, and returns `None` strictly after it.  (The single-bit
tamper-evidence part of the original claim is refuted separately: the
base64 decoder discards the unused trailing bits of the final group, so a
bit flip confined to them leaves the decoded payload — and hence the
verification result — unchanged.) -/
theorem C1_token_roundtrip :
    ∀ (secret u n r : List Nat) (tmake : Nat) (tver : ℚ),
      ScalarStr u → ScalarStr n → ScalarStr r →
      (make_token secret tmake u n r
        = b64encode (jsonDumps u n r (tmake + 21600) ++ 124 ::
            hexOfBytes (hmacSha256 secret (jsonDumps u n r (tmake + 21600)))))
      ∧ (tver ≤ ((tmake + 21600 : Nat) : ℚ) →
          verify_token secret tver (make_token secret tmake u n r)
            = some (u, n, r, tmake + 21600))
      ∧ (((tmake + 21600 : Nat) : ℚ) < tver →
          verify_token secret tver (make_token secret tmake u n r) = none) := by
  intro secret u n r tmake tver hu hn hr
  have hstruct : make_token secret tmake u n r
      = b64encode (jsonDumps u n r (tmake + 21600) ++ 124 ::
          hexOfBytes (hmacSha256 secret (jsonDumps u n r (tmake + 21600)))) := rfl
  have hplt := jsonDumps_lt u n r (tmake + 21600)
  have hhex := hexOfBytes_hmac_range secret (jsonDumps u n r (tmake + 21600))
  have hbytes : ∀ b ∈ jsonDumps u n r (tmake + 21600) ++ 124 ::
      hexOfBytes (hmacSha256 secret (jsonDumps u n r (tmake + 21600))), b < 256 := by
    intro b hb
    rcases List.mem_append.mp hb with hb | hb
    · have := hplt b hb; omega
    · rcases List.mem_cons.mp hb with rfl | hb
      · omega
      · have := hhex b hb; omega
  have hdec := b64decode_encode _ hbytes
  have hsig_ne : ∀ c ∈ hexOfBytes (hmacSha256 secret (jsonDumps u n r (tmake + 21600))),
      c ≠ 124 := by
    intro c hc
    have := hhex c hc
    omega
  have hsplit := splitAtLastBar_spec (jsonDumps u n r (tmake + 21600))
    (hexOfBytes (hmacSha256 secret (jsonDumps u n r (tmake + 21600)))) hsig_ne
  have hascii : asciiDecode (jsonDumps u n r (tmake + 21600) ++ 124 ::
      hexOfBytes (hmacSha256 secret (jsonDumps u n r (tmake + 21600))))
      = some (jsonDumps u n r (tmake + 21600) ++ 124 ::
          hexOfBytes (hmacSha256 secret (jsonDumps u n r (tmake + 21600)))) := by
    unfold asciiDecode
    rw [if_pos]
    rw [List.all_eq_true]
    intro b hb
    rcases List.mem_append.mp hb with hb | hb
    · simpa using hplt b hb
    · rcases List.mem_cons.mp hb with rfl | hb
      · decide
      · have := hhex b hb
        simp only [decide_eq_true_eq]
        omega
  have hver : ∀ t : ℚ, verify_token secret t (make_token secret tmake u n r)
      = if ((tmake + 21600 : Nat) : ℚ) < t then none
        else some (u, n, r, tmake + 21600) := by
    intro t
    rw [hstruct]
    unfold verify_token
    rw [hdec]
    dsimp only
    rw [hascii]
    dsimp only
    rw [hsplit]
    dsimp only
    rw [if_neg (by simp)]
    rw [parsePayload_jsonDumps u n r (tmake + 21600) hu hn hr]
  refine ⟨hstruct, ?_, ?_⟩
  · intro hle
    rw [hver tver, if_neg (not_lt.mpr hle)]
  · intro hlt
    rw [hver tver, if_pos hlt]

/-- Counterexample to C1 as stated: the token for `("a", "A", "admin")` at
`time.time() = 1000` under the default secret ends in `...OA==`; flipping
one bit (XOR 8, i.e. bit 3) of the final data character `A` (ASCII 65)
turns it into `I` (ASCII 73), a distinct token string that nevertheless
verifies successfully and yields the identical payload — the flipped bit
lies in the four trailing bits the base64 decoder discards.  So
verification does not fail for every single-bit mutation of the token. -/
theorem C1_counterexample :
    make_token defaultSecret 1000 (strCodes "a") (strCodes "A") (strCodes "admin")
      = tokenConcrete
  ∧ tokenConcrete.getD 141 0 = 65
  ∧ tokenConcrete.set 141 (65 ^^^ 2 ^ 3) ≠ tokenConcrete
  ∧ verify_token defaultSecret 1000 (tokenConcrete.set 141 (65 ^^^ 2 ^ 3))
      = some (strCodes "a", strCodes "A", strCodes "admin", 22600) := by
  exact ⟨by decide, by decide, by decide, by decide⟩

/-- Witness for C1 (amended): round-trip at the concrete token. -/
theorem C1_witness :
    ScalarStr (strCodes "a")
  ∧ verify_token defaultSecret 1000
      (make_token defaultSecret 1000 (strCodes "a") (strCodes "A") (strCodes "admin"))
      = some (strCodes "a", strCodes "A", strCodes "admin", 1000 + 21600) := by
  refine ⟨by decide, ?_⟩
  exact (C1_token_roundtrip defaultSecret (strCodes "a") (strCodes "A")
    (strCodes "admin") 1000 1000 (by decide) (by decide) (by decide)).2.1
    (by norm_num)

/-- Witness for C9: the sliding-expiry statement applied to the concrete
touch at hour 5. -/
theorem C9_witness :
    ∃ s, (AuthState.mk (some ⟨"c".toList, "C".toList, ROLE_BUSINESS, 11⟩)
        false).session = some s ∧ s.expires = 5 + SESSION_HOURS :=
  C9_sliding_expiry.1 ROLE_BUSINESS 5 none
    ⟨some ⟨"c".toList, "C".toList, ROLE_BUSINESS, 6⟩, false⟩
    ⟨some ⟨"c".toList, "C".toList, ROLE_BUSINESS, 11⟩, false⟩
    (by with_unfolding_all decide)

end Loeppky

